import Mathlib

/-!
Verification of the hifijson JSON lexer/parser core.

This file shallowly embeds the library's live modules
(`read.rs`, `write.rs`, `escape.rs`, `num.rs`, `str.rs`, `token.rs`,
`value.rs`) over byte lists.  Bytes are modelled as `Nat`, captured byte
containers (`&[u8]` subslices and `Vec<u8>`) as `List Nat` (content model),
decoded Rust strings as lists of Unicode code points.  Stateful Rust code
becomes explicit state passing; fallible code returns `Except`.

Two lexer states mirror the two input modes:
* `SliceLexer` (a borrowed buffer with the original base retained for
  rewinding) is modelled by the consumed prefix (most recent byte first)
  plus the remaining bytes;
* `IterLexer` (an iterator of fallible bytes, a one-byte putback `last`,
  and an error cell) is modelled literally.

Loops whose termination is not structural carry an explicit fuel
argument; every such use is commented with why the chosen fuel makes the
fuel-exhaustion branch unreachable, so the fueled function agrees with
the unbounded Rust loop.
-/

set_option maxRecDepth 2048

namespace Hifijson

/-- Number lexing error (`num::Error` in `num.rs`). -/
inductive NumError where
  | expectedDigit
deriving DecidableEq

/-- Escape lexing error (`escape::Error`).  The escape-leader and hex
variants carry the offending byte, following the revision used by
`str.rs` and the test suite (`escape.rs` itself declares them without a
payload, as `UnknownKind` and `InvalidHex`). -/
inductive EscError where
  | invalidKind (c : Nat)
  | invalidHex (c : Nat)
  | invalidChar (n : Nat)
  | expectedLowSurrogate
  | eof
deriving DecidableEq

/-- String lexing error (`str::Error`); the UTF-8 variant's position
payload is dropped. -/
inductive StrError where
  | control
  | escape (e : EscError)
  | eof
  | utf8
deriving DecidableEq

/-- Token-level expectation error (`token::Expect`). -/
inductive Expect where
  | value
  | valueOrEnd
  | commaOrEnd
  | string
  | colon
  | eof
deriving DecidableEq

/-- Parse error (`Error` in `lib.rs`). -/
inductive Error where
  | depth
  | num (e : NumError)
  | str (e : StrError)
  | token (e : Expect)
deriving DecidableEq

/-- JSON lexer token (`token::Token`). -/
inductive Token where
  | letter
  | comma
  | colon
  | lsquare
  | rsquare
  | lcurly
  | rcurly
  | quote
  | minus
  | digit
  | error
deriving DecidableEq

/-- Position of `.` and `e`/`E` in the string representation of a number
(`num::Parts`).  `NonZeroUsize` is modelled as `Nat`; positivity is
proved separately. -/
structure Parts where
  dot : Option Nat := none
  exp : Option Nat := none
deriving DecidableEq

/-- `Parts::is_int`. -/
def Parts.is_int (p : Parts) : Bool :=
  p.dot.isNone && p.exp.isNone

/-- JSON value (`value::Value`); the number representation is the list of
captured bytes, the string representation the list of decoded code
points. -/
inductive Value where
  | null
  | bool (b : Bool)
  | number (txt : List Nat) (parts : Parts)
  | str (s : List Nat)
  | array (items : List Value)
  | object (entries : List (List Nat × Value))

/-- JSON whitespace (`token.rs`: space, tab, LF, CR). -/
def isWs (c : Nat) : Bool :=
  c == 32 || c == 9 || c == 10 || c == 13

/-- ASCII `0`–`9`. -/
def isDigit (c : Nat) : Bool :=
  48 ≤ c && c ≤ 57

/-- ASCII letter (`a`–`z`, `A`–`Z`). -/
def isAsciiLetter (c : Nat) : Bool :=
  (97 ≤ c && c ≤ 122) || (65 ≤ c && c ≤ 90)

/-! ## The buffer lexer (`SliceLexer`, `read.rs` / `write.rs`)

The Rust struct keeps the whole input plus the current subslice; the
consumed part is recoverable by pointer arithmetic.  We model it as the
consumed prefix (most recent byte first, so all operations are structural
on `rest`) together with the remaining bytes. -/

structure SliceLexer where
  past : List Nat
  rest : List Nat
deriving DecidableEq

namespace SliceLexer

/-- The whole input slice (`self.whole`). -/
def whole (st : SliceLexer) : List Nat :=
  st.past.reverse ++ st.rest

/-- `Read::read` / `Read::take_next` for `SliceLexer`: split off the
first byte of the slice. -/
def takeNext (st : SliceLexer) : Option Nat × SliceLexer :=
  match st.rest with
  | [] => (none, st)
  | c :: r => (some c, ⟨c :: st.past, r⟩)

/-- `Read::peek_next` for `SliceLexer`: first byte of the slice. -/
def peekNext (st : SliceLexer) : Option Nat :=
  st.rest.head?

/-- `Read::strip_prefix` for `SliceLexer`: consume `s` if the slice
starts with it, otherwise leave the state unchanged. -/
def stripPre (s : List Nat) (st : SliceLexer) : Bool × SliceLexer :=
  if st.rest.take s.length = s then
    (true, ⟨(st.rest.take s.length).reverse ++ st.past, st.rest.drop s.length⟩)
  else
    (false, st)

/-- Core scan of a byte list with a stateful stop function: split off
the bytes strictly preceding the first byte for which `stop` yields
true. -/
def scanCore {τ : Type} (stop : τ → Nat → τ × Bool) : τ → List Nat →
    List Nat × τ × List Nat
  | t, [] => ([], t, [])
  | t, c :: r =>
    match stop t c with
    | (t', true) => ([], t', c :: r)
    | (t', false) =>
      let (bs, t'', rest) := scanCore stop t' r
      (c :: bs, t'', rest)

/-- Scan of the slice with a stateful stop function: consume and collect
bytes until `stop` yields true; the stop byte itself stays in the input.
This is the content model of both `Write::write_until` (`write.rs`,
where the collected bytes are a subslice of the input) and of slice
`skip_until` (which writes into an empty sink). -/
def scanUntil {τ : Type} (stop : τ → Nat → τ × Bool) (t : τ) (st : SliceLexer) :
    List Nat × τ × SliceLexer :=
  let (bs, t', rest) := scanCore stop t st.rest
  (bs, t', ⟨bs.reverse ++ st.past, rest⟩)

/-- `Read::skip_until` for `SliceLexer` (implemented in the source as
`write_until` into an empty sink). -/
def skipUntil (stop : Nat → Bool) (st : SliceLexer) : SliceLexer :=
  (scanUntil (fun _ c => ((), stop c)) () st).2.2

/-- Rewind the slice by `n` bytes (the `self.slice = &self.whole[self.offset() - n..]`
pattern of `num.rs` and `write.rs`; the source debug-asserts that the
rewound bytes are contiguous with the current position). -/
def rewind (n : Nat) (st : SliceLexer) : SliceLexer :=
  ⟨st.past.drop n, (st.past.take n).reverse ++ st.rest⟩

end SliceLexer

/-! ## The stream lexer (`IterLexer`, `read.rs` / `write.rs`)

The upstream fallible iterator is modelled as a list of `Except ε Nat`;
`last` is the one-byte putback, `error` the error cell. -/

structure IterLexer (ε : Type) where
  bytes : List (Except ε Nat)
  last : Option Nat
  error : Option ε

namespace IterLexer

variable {ε : Type}

/-- `Read::read` for `IterLexer`: pull one item from the iterator,
bypassing the putback; an upstream error is stored in the error cell and
reported as `none`. -/
def read (st : IterLexer ε) : Option Nat × IterLexer ε :=
  match st.bytes with
  | [] => (none, st)
  | .ok b :: t => (some b, { st with bytes := t })
  | .error e :: t => (none, { st with bytes := t, error := some e })

/-- Core of the stream `skip_until`: iterate the upstream items until
`stop` holds, returning the remaining items, the new putback, and the
upstream error if one was hit. -/
def skipCore (stop : Nat → Bool) : List (Except ε Nat) →
    List (Except ε Nat) × Option Nat × Option ε
  | [] => ([], none, none)
  | .ok c :: t => if stop c then (t, some c, none) else skipCore stop t
  | .error e :: t => (t, some 0, some e)

/-- `Read::skip_until` for `IterLexer`: iterate the upstream (ignoring
the current putback) until `stop` holds; the stop byte goes into the
putback.  On an upstream error the putback is set to byte `0` and the
error cell is filled; on exhaustion the putback is cleared. -/
def skipUntil (stop : Nat → Bool) (st : IterLexer ε) : IterLexer ε :=
  match skipCore stop st.bytes with
  | (bytes, last, some e) => ⟨bytes, last, some e⟩
  | (bytes, last, none) => ⟨bytes, last, st.error⟩

/-- `Read::peek_next` for `IterLexer`: the putback byte (the upstream is
never consulted). -/
def peekNext (st : IterLexer ε) : Option Nat :=
  st.last

/-- `Read::take_next` for `IterLexer`: drain the putback byte; the
upstream is not consulted and the putback is not refilled. -/
def takeNext (st : IterLexer ε) : Option Nat × IterLexer ε :=
  (st.last, { st with last := none })

/-- `Read::strip_prefix` for `IterLexer`: compare against bytes obtained
by `read`; on mismatch the input has been partially consumed. -/
def stripPre (s : List Nat) (st : IterLexer ε) : Bool × IterLexer ε :=
  match s with
  | [] => (true, st)
  | c1 :: s' =>
    match read st with
    | (some c2, st') => if c1 = c2 then stripPre s' st' else (false, st')
    | (none, st') => (false, st')

/-- `Write::append_until`/`write_until` for `IterLexer` with a stateful
stop function.  The Rust loop peeks, and on a non-stop byte takes it and
pushes it; since `take_next` empties the one-byte putback and
`peek_next` never refills it, the loop runs at most once. -/
def scanUntil {τ : Type} (stop : τ → Nat → τ × Bool) (t : τ) (st : IterLexer ε) :
    List Nat × τ × IterLexer ε :=
  match st.last with
  | none => ([], t, st)
  | some c =>
    match stop t c with
    | (t', true) => ([], t', st)
    | (t', false) => ([c], t', { st with last := none })

/-- Core of the stream scan with a stateful stop function: like
`skipCore`, but collecting the visited bytes. -/
def foreachCore {τ : Type} (stop : τ → Nat → τ × Bool) : τ → List (Except ε Nat) →
    List Nat × τ × List (Except ε Nat) × Option Nat × Option ε
  | t, [] => ([], t, [], none, none)
  | t, .ok c :: tl =>
    match stop t c with
    | (t', true) => ([], t', tl, some c, none)
    | (t', false) =>
      let (bs, t'', bytes, last, ne) := foreachCore stop t' tl
      (c :: bs, t'', bytes, last, ne)
  | t, .error e :: tl => ([], t, tl, some 0, some e)

/-- Modelled from the spec: `foreach_until(f, stop)` is called by
`str.rs` but defined nowhere under the source tree; per spec §4.1 it
consumes bytes and invokes `f` on each byte strictly preceding a byte
for which `stop` holds.  For the stream lexer we mirror the shape of
`IterLexer::skip_until` (stop byte into the putback, upstream errors set
the putback to byte `0` and fill the error cell), collecting the visited
bytes.  Like `skip_until`, it iterates the upstream directly, ignoring
the current putback. -/
def foreachUntil {τ : Type} (stop : τ → Nat → τ × Bool) (t : τ) (st : IterLexer ε) :
    List Nat × τ × IterLexer ε :=
  match foreachCore stop t st.bytes with
  | (bs, t', bytes, last, some e) => (bs, t', ⟨bytes, last, some e⟩)
  | (bs, t', bytes, last, none) => (bs, t', ⟨bytes, last, st.error⟩)

/-- Inner loop of `IterLexer::digits` (`num.rs`): while the peeked byte
is a digit, push and take it.  Because `take_next` empties the putback
and `peek_next` never refills it, the loop body runs at most once; the
second iteration always peeks `none`. -/
def digitsLoop (num : List Nat) (st : IterLexer ε) : List Nat × Bool × IterLexer ε :=
  match st.last with
  | some d =>
    if isDigit d then (num ++ [d], true, { st with last := none })
    else (num, false, st)
  | none => (num, false, st)

/-- The full item stream still available to the stream lexer: the
putback byte (if any) followed by the upstream items.  Consumption
invariants are stated against this stream. -/
def stream (st : IterLexer ε) : List (Except ε Nat) :=
  (match st.last with | some c => [Except.ok c] | none => []) ++ st.bytes

end IterLexer

/-! ## The capability interface

The Rust generic code is written against the `Read`/`Write` traits; we
package the per-lexer operations in a structure over the lexer state
type.  `size` is an embedding artifact used to pick adequate fuel for
source loops that are not structurally recursive. -/

structure LexOps (σ : Type) : Type 1 where
  peekNext : σ → Option Nat
  takeNext : σ → Option Nat × σ
  stripPre : List Nat → σ → Bool × σ
  skipUntil : (Nat → Bool) → σ → σ
  writeUntil : {τ : Type} → (τ → Nat → τ × Bool) → τ → σ → List Nat × τ × σ
  foreachUntil : {τ : Type} → (τ → Nat → τ × Bool) → τ → σ → List Nat × τ × σ
  size : σ → Nat

/-- The `Read`/`Write` operations of the buffer lexer. -/
def sliceOps : LexOps SliceLexer where
  peekNext := SliceLexer.peekNext
  takeNext := SliceLexer.takeNext
  stripPre := SliceLexer.stripPre
  skipUntil := SliceLexer.skipUntil
  writeUntil := SliceLexer.scanUntil
  foreachUntil := SliceLexer.scanUntil
  size st := st.rest.length

/-- The `Read`/`Write` operations of the stream lexer. -/
def iterOps (ε : Type) : LexOps (IterLexer ε) where
  peekNext := IterLexer.peekNext
  takeNext := IterLexer.takeNext
  stripPre := IterLexer.stripPre
  skipUntil := IterLexer.skipUntil
  writeUntil := IterLexer.scanUntil
  foreachUntil := IterLexer.foreachUntil
  size st := st.bytes.length + 1

/-! ## Escape sequences (`escape.rs`) -/

/-- Escape literal (`escape::Lit`). -/
inductive Lit where
  | quotationMark
  | reverseSolidus
  | solidus
  | backspace
  | formFeed
  | lineFeed
  | tab
  | carriageReturn
deriving DecidableEq

/-- `Lit::try_from`. -/
def Lit.tryFrom (c : Nat) : Option Lit :=
  if c = 34 then some .quotationMark
  else if c = 92 then some .reverseSolidus
  else if c = 47 then some .solidus
  else if c = 98 then some .backspace
  else if c = 102 then some .formFeed
  else if c = 110 then some .lineFeed
  else if c = 114 then some .carriageReturn
  else if c = 116 then some .tab
  else none

/-- `Lit::as_u8`. -/
def Lit.asU8 : Lit → Nat
  | .quotationMark => 0x22
  | .reverseSolidus => 0x5C
  | .solidus => 0x2F
  | .backspace => 0x08
  | .formFeed => 0x0C
  | .lineFeed => 0x0A
  | .carriageReturn => 0x0D
  | .tab => 0x09

/-- Escape sequence (`escape::Escape`, with `Hex<u16>` flattened into the
`unicode` and `byte` constructors). -/
inductive Escape where
  | lit (l : Lit)
  | unicode (u : Nat)
  | byte (b : Nat)
deriving DecidableEq

/-- `Escape::try_from` (the hex payload is a placeholder filled in by
`escape`). -/
def Escape.tryFrom (c : Nat) : Option Escape :=
  match Lit.tryFrom c with
  | some l => some (.lit l)
  | none =>
    if c = 120 then some (.byte 0)
    else if c = 117 then some (.unicode 0)
    else none

/-- Decoded escape: a Unicode code point or a raw byte (`Hex<char>`). -/
inductive HexChar where
  | unicode (c : Nat)
  | byte (b : Nat)
deriving DecidableEq

/-- `escape::decode_hex`. -/
def decodeHex (c : Nat) : Option Nat :=
  if 48 ≤ c ∧ c ≤ 57 then some (c - 48)
  else if 97 ≤ c ∧ c ≤ 102 then some (c - 97 + 10)
  else if 65 ≤ c ∧ c ≤ 70 then some (c - 65 + 10)
  else none

/-- `char::from_u32`: a Unicode scalar value is below `0x110000` and not
a surrogate. -/
def charFromU32 (n : Nat) : Option Nat :=
  if n < 0xD800 ∨ (0xE000 ≤ n ∧ n < 0x110000) then some n else none

variable {σ : Type}

/-- `escape::hexn`: read `count` hex digits, most significant first
(`count` is `size_of::<T>() * 2`, so 4 for `\uXXXX` and 2 for `\xHH`). -/
def hexn (O : LexOps σ) : Nat → Nat → σ → Except EscError (Nat × σ)
  | 0, acc, st => .ok (acc, st)
  | n + 1, acc, st =>
    match O.takeNext st with
    | (none, _) => .error .eof
    | (some h, st) =>
      match decodeHex h with
      | none => .error (.invalidHex h)
      | some v => hexn O n (acc * 16 + v) st

/-- Read the body of an escape sequence whose leader has already been
classified (the hex-digit reading of `escape.rs`'s `Lex::escape`). -/
def escapeBody (O : LexOps σ) (e : Escape) (st : σ) : Except EscError (Escape × σ) :=
  match e with
  | .unicode _ => (hexn O 4 0 st).map fun (v, st) => (.unicode v, st)
  | .byte _ => (hexn O 2 0 st).map fun (v, st) => (.byte v, st)
  | .lit l => .ok (.lit l, st)

/-- `Lex::escape` (`escape.rs`): read an escape sequence without the
leading backslash. -/
def escapeRead (O : LexOps σ) (st : σ) : Except EscError (Escape × σ) :=
  match O.takeNext st with
  | (none, _) => .error .eof
  | (some typ, st) =>
    match Escape.tryFrom typ with
    | none => .error (.invalidKind typ)
    | some e => escapeBody O e st

/-- `Lex::escape_char` (`escape.rs`): convert a read escape sequence to
a character, pairing a high surrogate with a following `\uXXXX` low
surrogate. -/
def escapeChar (O : LexOps σ) (e : Escape) (st : σ) : Except EscError (HexChar × σ) :=
  match e with
  | .unicode high =>
    if 0xD800 ≤ high ∧ high ≤ 0xDBFF then
      if (O.takeNext st).1 ≠ some 92 then .error .expectedLowSurrogate
      else
        match escapeRead O (O.takeNext st).2 with
        | .error e => .error e
        | .ok (.unicode low, st) =>
          if 0xDC00 ≤ low ∧ low ≤ 0xDFFF then
            let cp := (high - 0xD800) * 0x400 + (low - 0xDC00) + 0x10000
            match charFromU32 cp with
            | some c => .ok (.unicode c, st)
            | none => .error (.invalidChar cp)
          else .error .expectedLowSurrogate
        | .ok (_, _) => .error .expectedLowSurrogate
    else
      match charFromU32 high with
      | some c => .ok (.unicode c, st)
      | none => .error (.invalidChar high)
  | .byte b => .ok (.byte b, st)
  | .lit l =>
    match charFromU32 l.asU8 with
    | some c => .ok (.unicode c, st)
    | none => .error (.invalidChar l.asU8)

/-- Decode one full escape sequence after the backslash, yielding a code
point (this is the `lexer.escape(next)` call of the string-lexing
closures in `str.rs`, composed from `Lex::escape` and
`Lex::escape_char`; a `\xHH` escape yields the raw byte value). -/
def escapeNext (O : LexOps σ) (st : σ) : Except EscError (Nat × σ) :=
  match escapeRead O st with
  | .error e => .error e
  | .ok (e, st) =>
    match escapeChar O e st with
    | .error e => .error e
    | .ok (.unicode c, st) => .ok (c, st)
    | .ok (.byte b, st) => .ok (b, st)

/-! ## String lexing (`str.rs`) -/

/-- String lexing state machine (`str::State`). -/
structure StrState where
  esc : Option (Option Nat) := none
  err : Option StrError := none

/-- `State::process`: process the next byte, returning whether the
string is finished or an error occurred. -/
def StrState.process (s : StrState) (c : Nat) : StrState × Bool :=
  match s.esc with
  | some (some hexPos) =>
    if (decodeHex c).isNone then
      let s := { s with err := some (.escape (.invalidHex c)) }
      (s, s.err.isSome)
    else if hexPos < 3 then
      let s := { s with esc := some (some (hexPos + 1)) }
      (s, s.err.isSome)
    else
      let s := { s with esc := none }
      (s, s.err.isSome)
  | some none =>
    if c = 117 then
      let s := { s with esc := some (some 0) }
      (s, s.err.isSome)
    else if (Lit.tryFrom c).isSome then
      let s := { s with esc := none }
      (s, s.err.isSome)
    else
      let s := { s with err := some (.escape (.invalidKind c)) }
      (s, s.err.isSome)
  | none =>
    if c = 34 then (s, true)
    else if c = 92 then
      let s := { s with esc := some none }
      (s, s.err.isSome)
    else if c ≤ 0x1F then
      let s := { s with err := some .control }
      (s, s.err.isSome)
    else (s, false)

/-- `State::finish`: ensure that once `process` stopped the scan, the
string has actually terminated with a closing quote (the `next` closure
of the source is only invoked in the error-free branch). -/
def StrState.finish (O : LexOps σ) (s : StrState) (st : σ) : Except StrError σ :=
  match s.err with
  | some e => .error e
  | none =>
    if s.esc.isSome then .error (.escape .eof)
    else
      match O.takeNext st with
      | (some c, st) => if c = 34 then .ok st else .error .eof
      | (none, _) => .error .eof

/-- `Lex::str_foreach` (`str.rs`): run the string state machine over the
input via `foreach_until`; the visited bytes (those `f` is invoked on)
are returned. -/
def strForeach (O : LexOps σ) (st : σ) : Except StrError (List Nat × σ) :=
  let w := O.foreachUntil StrState.process {} st
  (StrState.finish O w.2.1 w.2.2).map fun st => (w.1, st)

/-- `Lex::str_ignore`: read a string without saving it. -/
def strIgnore (O : LexOps σ) (st : σ) : Except StrError σ :=
  (strForeach O st).map fun (_, st) => st

/-- `LexWrite::str_bytes`: read a string to bytes via `write_until`,
copying escape sequences one-to-one. -/
def strBytes (O : LexOps σ) (st : σ) : Except StrError (List Nat × σ) :=
  let w := O.writeUntil StrState.process {} st
  (StrState.finish O w.2.1 w.2.2).map fun st => (w.1, st)

/-- The `string_end` predicate of `LexWrite::str_fold`. -/
def stringEnd (c : Nat) : Bool :=
  c = 92 || c = 34 || c ≤ 0x1F

/-- Loop of `LexWrite::str_fold`: decode one escape, flush the following
contiguous run, and dispatch on the byte that stopped the scan.  Each
iteration consumes at least the escape leader, so fuel
`O.size st + 1` is adequate; the fuel-exhaustion branch is unreachable
and reports `Eof`. -/
def strFoldLoop {T : Type} (O : LexOps σ)
    (onString : List Nat → T → Except StrError T)
    (onEscape : T → σ → Except StrError (T × σ)) :
    Nat → T → σ → Except StrError (T × σ)
  | 0, _, _ => .error .eof
  | fuel + 1, out, st =>
    match onEscape out st with
    | .error e => .error e
    | .ok (out, st) =>
      let w := O.writeUntil (fun u c => (u, stringEnd c)) () st
      match onString w.1 out with
      | .error e => .error e
      | .ok out =>
        match O.takeNext w.2.2 with
        | (none, _) => .error .eof
        | (some c, st) =>
          if c = 92 then strFoldLoop O onString onEscape fuel out st
          else if c = 34 then .ok (out, st)
          else .error .control

/-- `LexWrite::str_fold` (`str.rs`): lex a string by flushing contiguous
runs through `onString` and decoding escape sequences through
`onEscape`. -/
def strFold {T : Type} (O : LexOps σ)
    (onString : List Nat → T → Except StrError T)
    (onEscape : T → σ → Except StrError (T × σ))
    (out : T) (st : σ) : Except StrError (T × σ) :=
  let w := O.writeUntil (fun u c => (u, stringEnd c)) () st
  match onString w.1 out with
  | .error e => .error e
  | .ok out =>
    match O.takeNext w.2.2 with
    | (none, _) => .error .eof
    | (some c, st) =>
      if c = 92 then strFoldLoop O onString onEscape (O.size st + 1) out st
      else if c = 34 then .ok (out, st)
      else .error .control

/-- UTF-8 decoding (`core::str::from_utf8`): strict validation rejecting
truncated sequences, overlong encodings, surrogates and values above
`0x10FFFF`; yields the decoded code points. -/
def utf8Decode : List Nat → Option (List Nat)
  | [] => some []
  | c :: rest =>
    if c < 0x80 then
      (utf8Decode rest).map fun cs => c :: cs
    else if c < 0xC2 then none
    else if c < 0xE0 then
      match rest with
      | c1 :: rest' =>
        if 0x80 ≤ c1 ∧ c1 < 0xC0 then
          (utf8Decode rest').map fun cs => ((c - 0xC0) * 64 + (c1 - 0x80)) :: cs
        else none
      | _ => none
    else if c < 0xF0 then
      match rest with
      | c1 :: c2 :: rest' =>
        let lo1 := if c = 0xE0 then 0xA0 else 0x80
        let hi1 := if c = 0xED then 0xA0 else 0xC0
        if lo1 ≤ c1 ∧ c1 < hi1 ∧ 0x80 ≤ c2 ∧ c2 < 0xC0 then
          (utf8Decode rest').map fun cs =>
            (((c - 0xE0) * 64 + (c1 - 0x80)) * 64 + (c2 - 0x80)) :: cs
        else none
      | _ => none
    else if c < 0xF5 then
      match rest with
      | c1 :: c2 :: c3 :: rest' =>
        let lo1 := if c = 0xF0 then 0x90 else 0x80
        let hi1 := if c = 0xF4 then 0x90 else 0xC0
        if lo1 ≤ c1 ∧ c1 < hi1 ∧ 0x80 ≤ c2 ∧ c2 < 0xC0 ∧ 0x80 ≤ c3 ∧ c3 < 0xC0 then
          (utf8Decode rest').map fun cs =>
            ((((c - 0xF0) * 64 + (c1 - 0x80)) * 64 + (c2 - 0x80)) * 64 + (c3 - 0x80)) :: cs
        else none
      | _ => none
    else none

/-- `LexAlloc::str_string` (`str.rs`): lex a JSON string to a decoded
string via `str_fold`.  The buffer and stream implementations differ
only in allocation strategy (`Cow` upgrade versus owned `String`); their
common content semantics is: UTF-8-validate and append each contiguous
run, decode and append each escape sequence. -/
def strString (O : LexOps σ) (st : σ) : Except StrError (List Nat × σ) :=
  strFold O
    (fun bytes out =>
      match utf8Decode bytes with
      | none => .error .utf8
      | some cs => .ok (out ++ cs))
    (fun out st =>
      match escapeNext O st with
      | .error e => .error (.escape e)
      | .ok (c, st) => .ok (out ++ [c], st))
    [] st

/-! ## Number lexing (`num.rs`)

The generic (`num::Lex`) functions are given for the buffer lexer, where
the `peek_next`/`take_next` loops are structural recursion on the
remaining bytes; the capture list plays the role of the per-byte
callback `f`.  The `num::LexWrite` capture functions are per-lexer in
the source and embedded per-lexer below. -/

namespace SliceLexer

/-- Core digit scan: split off the leading ASCII digits. -/
def digitsCore : List Nat → List Nat × List Nat
  | [] => ([], [])
  | c :: r =>
    if isDigit c then
      let (ds, rest) := digitsCore r
      (c :: ds, rest)
    else ([], c :: r)

/-- `Lex::digits_foreach` at the buffer lexer: consume leading digits,
returning them in order (the callback `f` receives exactly these
bytes). -/
def digitsForeach (st : SliceLexer) : List Nat × SliceLexer :=
  let (ds, rest) := digitsCore st.rest
  (ds, ⟨ds.reverse ++ st.past, rest⟩)

/-- The optional exponent sign step of `Lex::num_foreach`: consume a
`+` or `-` after the exponent marker, returning the consumed sign
bytes. -/
def expSign (st : SliceLexer) : List Nat × SliceLexer :=
  if peekNext st = some 43 then ([43], (takeNext st).2)
  else if peekNext st = some 45 then ([45], (takeNext st).2)
  else ([], st)

/-- The fraction/exponent loop of `Lex::num_foreach`.  `txt` is the text
captured so far, whose length equals the source's `pos` counter.  The
loop guards disable each branch after it has run once, so fuel `2`
reaches the plain-return arm exactly as the unbounded source loop
does. -/
def numLoop : Nat → List Nat → Parts → SliceLexer →
    Except NumError ((List Nat × Parts) × SliceLexer)
  | 0, txt, parts, st => .ok ((txt, parts), st)
  | fuel + 1, txt, parts, st =>
    match peekNext st with
    | none => .ok ((txt, parts), st)
    | some c =>
      if c = 46 ∧ parts.is_int then
        let parts := { parts with dot := some txt.length }
        let st := (takeNext st).2
        let (ds, st) := digitsForeach st
        if ds.length = 0 then .error .expectedDigit
        else numLoop fuel (txt ++ 46 :: ds) parts st
      else if (c = 101 ∨ c = 69) ∧ parts.exp = none then
        let parts := { parts with exp := some txt.length }
        let st := (takeNext st).2
        let (sign, st) := expSign st
        let (ds, st) := digitsForeach st
        if ds.length = 0 then .error .expectedDigit
        else numLoop fuel (txt ++ (c :: (sign ++ ds))) parts st
      else .ok ((txt, parts), st)

/-- `Lex::num_foreach` at the buffer lexer: lex a number, returning the
bytes the callback `f` was invoked on together with the `Parts`
record. -/
def numForeach (st : SliceLexer) : Except NumError ((List Nat × Parts) × SliceLexer) :=
  match takeNext st with
  | (none, _) => .error .expectedDigit
  | (some c, st) =>
    if c = 48 then numLoop 2 [48] {} st
    else if 49 ≤ c ∧ c ≤ 57 then
      let (ds, st) := digitsForeach st
      numLoop 2 (c :: ds) {} st
    else .error .expectedDigit

/-- `Lex::num_ignore` at the buffer lexer. -/
def numIgnore (st : SliceLexer) : Except NumError (Parts × SliceLexer) :=
  (numForeach st).map fun ((_, parts), st) => (parts, st)

/-- Count of leading ASCII digits (`num.rs`'s free function
`digits`). -/
def digitsCount (s : List Nat) : Nat :=
  (s.takeWhile isDigit).length

/-- The fraction/exponent loop of the buffer lexer's
`LexWrite::num_bytes`, scanning positionally on the rewound slice `s`.
The guards disable each branch after it has run once, so fuel `2`
reaches the plain-return arm exactly as the unbounded source loop
does. -/
def numBytesLoop (s : List Nat) : Nat → Nat → Parts → Except NumError (Nat × Parts)
  | 0, pos, parts => .ok (pos, parts)
  | fuel + 1, pos, parts =>
    match s.get? pos with
    | none => .ok (pos, parts)
    | some c =>
      if c = 46 ∧ parts.dot = none ∧ parts.exp = none then
        let parts := { parts with dot := some pos }
        let pos := pos + 1
        let n := digitsCount (s.drop pos)
        if n = 0 then .error .expectedDigit
        else numBytesLoop s fuel (pos + n) parts
      else if (c = 101 ∨ c = 69) ∧ parts.exp = none then
        let parts := { parts with exp := some pos }
        let pos := pos + 1
        let pos := if s.get? pos = some 43 ∨ s.get? pos = some 45 then pos + 1 else pos
        let n := digitsCount (s.drop pos)
        if n = 0 then .error .expectedDigit
        else numBytesLoop s fuel (pos + n) parts
      else .ok (pos, parts)

/-- `LexWrite::num_bytes` for the buffer lexer (`num.rs`): rewind the
slice by the prefix length (the source debug-asserts the prefix matches
the rewound bytes), scan the number positionally, and capture the
consumed span including the prefix. -/
def numBytes (pfx : List Nat) (st : SliceLexer) :
    Except NumError ((List Nat × Parts) × SliceLexer) :=
  let st := rewind pfx.length st
  let s := st.rest
  let pos := pfx.length
  let intLen :=
    if s.get? pos = some 48 then some 1
    else
      let n := digitsCount (s.drop pos)
      if n = 0 then none else some n
  match intLen with
  | none => .error .expectedDigit
  | some n =>
    match numBytesLoop s 2 (pos + n) {} with
    | .error e => .error e
    | .ok (pos, parts) =>
      .ok ((s.take pos, parts), ⟨(s.take pos).reverse ++ st.past, s.drop pos⟩)

/-- `LexWrite::num_string` for the buffer lexer; the captured bytes are
kept as bytes (the source's UTF-8 conversion of a digit span always
succeeds). -/
def numString (pfx : List Nat) (st : SliceLexer) :
    Except NumError ((List Nat × Parts) × SliceLexer) :=
  numBytes pfx st

end SliceLexer

namespace IterLexer

variable {ε : Type}

/-- `IterLexer::digits` (`num.rs`): run the digit loop, then fail unless
at least one digit was read and no upstream error is pending. -/
def digits (num : List Nat) (st : IterLexer ε) :
    Except NumError (List Nat × IterLexer ε) :=
  let (num, someDigit, st) := digitsLoop num st
  if someDigit && st.error.isNone then .ok (num, st) else .error .expectedDigit

/-- The fraction/exponent loop of the stream lexer's
`LexWrite::num_bytes`.  As in the buffer case the guards disable each
branch after it has run once, so fuel `2` is adequate. -/
def numLoop : Nat → List Nat → Parts → IterLexer ε →
    Except NumError ((List Nat × Parts) × IterLexer ε)
  | 0, num, parts, st => .ok ((num, parts), st)
  | fuel + 1, num, parts, st =>
    match peekNext st with
    | none => .ok ((num, parts), st)
    | some c =>
      if c = 46 ∧ parts.dot = none ∧ parts.exp = none then
        let parts := { parts with dot := some num.length }
        let num := num ++ [46]
        let st := (takeNext st).2
        match digits num st with
        | .error e => .error e
        | .ok (num, st) => numLoop fuel num parts st
      else if (c = 101 ∨ c = 69) ∧ parts.exp = none then
        let parts := { parts with exp := some num.length }
        let num := num ++ [c]
        let st := (takeNext st).2
        let (num, st) :=
          if peekNext st = some 43 then (num ++ [43], (takeNext st).2)
          else if peekNext st = some 45 then (num ++ [45], (takeNext st).2)
          else (num, st)
        match digits num st with
        | .error e => .error e
        | .ok (num, st) => numLoop fuel num parts st
      else .ok ((num, parts), st)

/-- `LexWrite::num_bytes` for the stream lexer (`num.rs`): extend the
output with the prefix, read the integer part, then fraction and
exponent. -/
def numBytes (pfx : List Nat) (st : IterLexer ε) :
    Except NumError ((List Nat × Parts) × IterLexer ε) :=
  let num := pfx
  match
    if peekNext st = some 48 then
      .ok (num ++ [48], (takeNext st).2)
    else
      digits num st
  with
  | .error e => .error (e : NumError)
  | .ok (num, st) => numLoop 2 num {} st

/-- `LexWrite::num_string` for the stream lexer. -/
def numString (pfx : List Nat) (st : IterLexer ε) :
    Except NumError ((List Nat × Parts) × IterLexer ε) :=
  numBytes pfx st

end IterLexer

/-! ## Token layer (`token.rs`) -/

/-- `Lex::eat_whitespace`: skip to the earliest non-whitespace
character. -/
def eatWhitespace (O : LexOps σ) (st : σ) : σ :=
  O.skipUntil (fun c => !(isWs c)) st

/-- `Lex::token`: classify a peeked byte; single-character tokens that
can be reconstructed losslessly are consumed, `Letter`, `Digit` and
unknown bytes are preserved. -/
def tokenOf (O : LexOps σ) (c : Nat) (st : σ) : Token × σ :=
  if isAsciiLetter c then (.letter, st)
  else if isDigit c then (.digit, st)
  else
    let t : Option Token :=
      if c = 45 then some .minus
      else if c = 34 then some .quote
      else if c = 91 then some .lsquare
      else if c = 93 then some .rsquare
      else if c = 123 then some .lcurly
      else if c = 125 then some .rcurly
      else if c = 44 then some .comma
      else if c = 58 then some .colon
      else none
    match t with
    | some t => (t, (O.takeNext st).2)
    | none => (.error, st)

/-- `Lex::ws_token`: skip whitespace and classify the following byte if
there is one. -/
def wsToken (O : LexOps σ) (st : σ) : Option Token × σ :=
  let st := eatWhitespace O st
  match O.peekNext st with
  | none => (none, st)
  | some c =>
    let (t, st) := tokenOf O c st
    (some t, st)

/-- `Lex::null_or_bool`: parse `null`, `true` or `false` starting from
the not-yet-consumed first letter. -/
def nullOrBool (O : LexOps σ) (st : σ) : Option (Option Bool) × σ :=
  match O.takeNext st with
  | (some 110, st) =>
    let (ok, st) := O.stripPre [117, 108, 108] st
    if ok then (some none, st) else (none, st)
  | (some 116, st) =>
    let (ok, st) := O.stripPre [114, 117, 101] st
    if ok then (some (some true), st) else (none, st)
  | (some 102, st) =>
    let (ok, st) := O.stripPre [97, 108, 115, 101] st
    if ok then (some (some false), st) else (none, st)
  | (_, st) => (none, st)

/-- `Lex::str_colon`: require a quote token, parse the key with `f`,
then require a colon token obtained through `tf`. -/
def strColon {α : Type} (O : LexOps σ) (t : Token) (tf : σ → Option Token × σ)
    (f : σ → Except Error (α × σ)) (st : σ) : Except Error (α × σ) :=
  if t = .quote then
    match f st with
    | .error e => .error e
    | .ok (key, st) =>
      match tf st with
      | (some .colon, st) => .ok (key, st)
      | (_, _) => .error (.token .colon)
  else .error (.token .string)

/-- Loop of `Lex::seq`: run `f` on the current item token, then expect
the end token, or a comma followed by another item.  Each iteration
consumes at least the separating comma, so at call sites fuel
`O.size st + 1` is adequate; the fuel-exhaustion branch is unreachable
and reports `Eof`. -/
def seqLoop {α : Type} (O : LexOps σ) (e : Token) (tf : σ → Option Token × σ)
    (f : α → Token → σ → Except Error (α × σ)) :
    Nat → α → Token → σ → Except Error (α × σ)
  | 0, _, _, _ => .error (.token .eof)
  | fuel + 1, acc, t, st =>
    match f acc t st with
    | .error err => .error err
    | .ok (acc, st) =>
      match tf st with
      | (none, _) => .error (.token .commaOrEnd)
      | (some t', st) =>
        if t' = e then .ok (acc, st)
        else if t' = .comma then
          match tf st with
          | (none, _) => .error (.token .value)
          | (some t'', st) => seqLoop O e tf f fuel acc t'' st
        else .error (.token .commaOrEnd)

/-- `Lex::seq` (`token.rs`): execute `f` for every item of the
comma-separated sequence closed by the end token `e`; the accumulator
`acc` models the state of the Rust `FnMut` closure. -/
def seq {α : Type} (O : LexOps σ) (fuel : Nat) (e : Token) (tf : σ → Option Token × σ)
    (f : α → Token → σ → Except Error (α × σ)) (acc : α) (st : σ) :
    Except Error (α × σ) :=
  match tf st with
  | (none, _) => .error (.token .valueOrEnd)
  | (some t, st) =>
    if t = e then .ok (acc, st)
    else seqLoop O e tf f fuel acc t st

/-- `Lex::exactly_one` (`token.rs`): parse one value via `f` and require
that only whitespace remains. -/
def exactlyOne {α : Type} (O : LexOps σ) (tf : σ → Option Token × σ)
    (f : Token → σ → Except Error (α × σ)) (st : σ) : Except Error (α × σ) :=
  match tf st with
  | (none, _) => .error (.token .value)
  | (some t, st) =>
    match f t st with
    | .error e => .error e
    | .ok (v, st) =>
      let st := eatWhitespace O st
      match O.peekNext st with
      | none => .ok (v, st)
      | some _ => .error (.token .eof)

/-! ## Value layer (`value.rs`)

`value.rs` predates the current `token.rs` (its `Token` enum still has
`Null`/`True`/`False`/`DigitOrMinus` variants and it passes no token
function to `seq`/`str_colon`); following the current token layer and
spec §4.7, letters dispatch through `null_or_bool`, a consumed `-`
becomes the capture prefix, and `ws_token` is the token function. -/

/-- The allocating lexer capabilities used by the value layer
(`LexAlloc`): the `Read`/`Write` operations plus the per-lexer
`num_string` and `str_string`. -/
structure LexAllocOps (σ : Type) : Type 1 where
  ops : LexOps σ
  numString : List Nat → σ → Except NumError ((List Nat × Parts) × σ)
  strString : σ → Except StrError (List Nat × σ)

/-- The allocating capabilities of the buffer lexer. -/
def sliceAlloc : LexAllocOps SliceLexer where
  ops := sliceOps
  numString := SliceLexer.numString
  strString := strString sliceOps

/-- The allocating capabilities of the stream lexer. -/
def iterAlloc (ε : Type) : LexAllocOps (IterLexer ε) where
  ops := iterOps ε
  numString := IterLexer.numString
  strString := strString (iterOps ε)

/-- `value::from_token`: build a `Value` from the dispatched token.  The
fuel bounds the recursion depth (the source recursion is limited only by
the host stack); since every nesting level consumes at least one byte of
input, fuel `input length + 1` can never run out, making the fuel-zero
branch unreachable. -/
def fromTokenF (A : LexAllocOps σ) : Nat → Token → σ → Except Error (Value × σ)
  | 0, _, _ => .error .depth
  | fuel + 1, t, st =>
    match t with
    | .letter =>
      match nullOrBool A.ops st with
      | (some none, st) => .ok (.null, st)
      | (some (some b), st) => .ok (.bool b, st)
      | (none, _) => .error (.token .value)
    | .digit =>
      match A.numString [] st with
      | .error e => .error (.num e)
      | .ok ((txt, parts), st) => .ok (.number txt parts, st)
    | .minus =>
      match A.numString [45] st with
      | .error e => .error (.num e)
      | .ok ((txt, parts), st) => .ok (.number txt parts, st)
    | .quote =>
      match A.strString st with
      | .error e => .error (.str e)
      | .ok (s, st) => .ok (.str s, st)
    | .lsquare =>
      match
        seq A.ops (A.ops.size st + 1) .rsquare (wsToken A.ops)
          (fun arr t st =>
            match fromTokenF A fuel t st with
            | .error e => .error e
            | .ok (v, st) => .ok (arr ++ [v], st))
          [] st
      with
      | .error e => .error e
      | .ok (arr, st) => .ok (.array arr, st)
    | .lcurly =>
      match
        seq A.ops (A.ops.size st + 1) .rcurly (wsToken A.ops)
          (fun obj t st =>
            match
              strColon A.ops t (wsToken A.ops)
                (fun st =>
                  match A.strString st with
                  | .error e => .error (.str e)
                  | .ok (k, st) => .ok (k, st))
                st
            with
            | .error e => .error e
            | .ok (key, st) =>
              match wsToken A.ops st with
              | (none, _) => .error (.token .value)
              | (some t', st) =>
                match fromTokenF A fuel t' st with
                | .error e => .error e
                | .ok (v, st) => .ok (obj ++ [(key, v)], st))
          [] st
      with
      | .error e => .error e
      | .ok (obj, st) => .ok (.object obj, st)
    | _ => .error (.token .value)

/-- `value::parse_depth`: like `from_token`, but decrement a depth
counter at each recursive call into an array or object, failing with
`Depth` at zero; non-bracket tokens are delegated to `from_token`. -/
def parseDepthF (A : LexAllocOps σ) : Nat → Nat → Token → σ → Except Error (Value × σ)
  | 0, _, _, _ => .error .depth
  | fuel + 1, d, t, st =>
    if d = 0 then .error .depth
    else
      match t with
      | .lsquare =>
        match
          seq A.ops (A.ops.size st + 1) .rsquare (wsToken A.ops)
            (fun arr t st =>
              match parseDepthF A fuel (d - 1) t st with
              | .error e => .error e
              | .ok (v, st) => .ok (arr ++ [v], st))
            [] st
        with
        | .error e => .error e
        | .ok (arr, st) => .ok (.array arr, st)
      | .lcurly =>
        match
          seq A.ops (A.ops.size st + 1) .rcurly (wsToken A.ops)
            (fun obj t st =>
              match
                strColon A.ops t (wsToken A.ops)
                  (fun st =>
                    match A.strString st with
                    | .error e => .error (.str e)
                    | .ok (k, st) => .ok (k, st))
                  st
              with
              | .error e => .error e
              | .ok (key, st) =>
                match wsToken A.ops st with
                | (none, _) => .error (.token .value)
                | (some t', st) =>
                  match parseDepthF A fuel (d - 1) t' st with
                  | .error e => .error e
                  | .ok (v, st) => .ok (obj ++ [(key, v)], st))
            [] st
        with
        | .error e => .error e
        | .ok (obj, st) => .ok (.object obj, st)
      | t => fromTokenF A (fuel + 1) t st

mutual

/-- Maximum nesting of a value, counting every value level: scalars sit
at nesting 1, and each enclosing array or object adds one.  This is
exactly the depth budget `parse_depth` consumes: each value, including
the outermost, costs one decrement of the counter. -/
def nesting : Value → Nat
  | .array items => 1 + nestingList items
  | .object entries => 1 + nestingObj entries
  | _ => 1

/-- Maximum nesting of a list of array items. -/
def nestingList : List Value → Nat
  | [] => 0
  | v :: vs => max (nesting v) (nestingList vs)

/-- Maximum nesting of the values of a list of object entries. -/
def nestingObj : List (List Nat × Value) → Nat
  | [] => 0
  | (_, v) :: vs => max (nesting v) (nestingObj vs)

end

/-! ## Compact serialization (`Display for Value` in `value.rs`) -/

/-- `JsonString` escaping of one code point: the five special characters
print via `escape_default`, code points below 20 (decimal, as in the
source) print as `\uXXXX`, all others print as themselves. -/
def jsonStringChar (c : Nat) : List Nat :=
  if c = 92 then [92, 92]
  else if c = 34 then [92, 34]
  else if c = 10 then [92, 110]
  else if c = 13 then [92, 114]
  else if c = 9 then [92, 116]
  else if c < 20 then
    let hx := fun (n : Nat) => if n < 10 then 48 + n else 97 + (n - 10)
    [92, 117, hx (c / 4096 % 16), hx (c / 256 % 16), hx (c / 16 % 16), hx (c % 16)]
  else [c]

/-- `JsonString` display: a double-quoted, escaped string. -/
def jsonString (s : List Nat) : List Nat :=
  34 :: (s.flatMap jsonStringChar) ++ [34]

mutual

/-- Compact display of a value (`impl Display for Value`), as a list of
code points: no spaces, elements comma-separated, keys colon-separated
from values. -/
def displayValue : Value → List Nat
  | .null => [110, 117, 108, 108]
  | .bool true => [116, 114, 117, 101]
  | .bool false => [102, 97, 108, 115, 101]
  | .number txt _ => txt
  | .str s => jsonString s
  | .array items => 91 :: displayItems items ++ [93]
  | .object entries => 123 :: displayEntries entries ++ [125]

/-- Comma-separated display of array items. -/
def displayItems : List Value → List Nat
  | [] => []
  | [v] => displayValue v
  | v :: vs => displayValue v ++ 44 :: displayItems vs

/-- Comma-separated display of object entries. -/
def displayEntries : List (List Nat × Value) → List Nat
  | [] => []
  | [(k, v)] => jsonString k ++ 58 :: displayValue v
  | (k, v) :: kvs => jsonString k ++ 58 :: displayValue v ++ 44 :: displayEntries kvs

end

/-! ## End-to-end pipelines -/

/-- A fresh buffer lexer over the input (`SliceLexer::new`). -/
def SliceLexer.ofBytes (s : List Nat) : SliceLexer :=
  ⟨[], s⟩

/-- A fresh stream lexer over an error-free iterator of the input's
bytes (`IterLexer::new`). -/
def IterLexer.ofBytes (ε : Type) (s : List Nat) : IterLexer ε :=
  ⟨s.map Except.ok, none, none⟩

/-- Parse exactly one value from a byte buffer with unbounded depth
(`lexer.exactly_one(ws_token, value parser)` over `SliceLexer`). -/
def parseOneSlice (s : List Nat) : Except Error (Value × SliceLexer) :=
  exactlyOne sliceOps (wsToken sliceOps)
    (fun t st => fromTokenF sliceAlloc (s.length + 1) t st)
    (SliceLexer.ofBytes s)

/-- Parse exactly one value from an error-free byte stream with
unbounded depth (`lexer.exactly_one(ws_token, value parser)` over
`IterLexer`). -/
def parseOneIter (s : List Nat) : Except Error (Value × IterLexer Unit) :=
  exactlyOne (iterOps Unit) (wsToken (iterOps Unit))
    (fun t st => fromTokenF (iterAlloc Unit) (s.length + 1) t st)
    (IterLexer.ofBytes Unit s)

/-- Parse exactly one value from a byte buffer with depth bound `d`
(`exactly_one` over `parse_depth`). -/
def parseOneSliceDepth (d : Nat) (s : List Nat) : Except Error (Value × SliceLexer) :=
  exactlyOne sliceOps (wsToken sliceOps)
    (fun t st => parseDepthF sliceAlloc (s.length + 1) d t st)
    (SliceLexer.ofBytes s)

/-! ## Basic lemmas about the lexer primitives -/

theorem scanCore_split {τ : Type} (stop : τ → Nat → τ × Bool) :
    ∀ (s : List Nat) (t : τ),
      ∃ pre t' rest, s = pre ++ rest ∧ SliceLexer.scanCore stop t s = (pre, t', rest) := by
  intro s
  induction s with
  | nil => intro t; exact ⟨[], t, [], rfl, rfl⟩
  | cons c r ih =>
    intro t
    rcases h : stop t c with ⟨t', b⟩
    cases b with
    | true => exact ⟨[], t', c :: r, rfl, by simp [SliceLexer.scanCore, h]⟩
    | false =>
      obtain ⟨pre, t'', rest, hsplit, hrun⟩ := ih t'
      exact ⟨c :: pre, t'', rest, by simp [hsplit], by simp [SliceLexer.scanCore, h, hrun]⟩

theorem scanCore_pure (p : Nat → Bool) :
    ∀ (s : List Nat),
      SliceLexer.scanCore (fun (_ : Unit) c => ((), p c)) () s =
        (s.takeWhile fun c => !(p c), (), s.dropWhile fun c => !(p c)) := by
  intro s
  induction s with
  | nil => rfl
  | cons c r ih =>
    by_cases h : p c
    · simp [SliceLexer.scanCore, h, List.takeWhile, List.dropWhile]
    · simp [SliceLexer.scanCore, h, List.takeWhile, List.dropWhile, ih]

theorem sliceSkipUntil_eq (p : Nat → Bool) (s past : List Nat) :
    SliceLexer.skipUntil p ⟨past, s⟩ =
      ⟨(s.takeWhile fun c => !(p c)).reverse ++ past, s.dropWhile fun c => !(p c)⟩ := by
  simp [SliceLexer.skipUntil, SliceLexer.scanUntil, scanCore_pure]

theorem eatWhitespace_slice (s past : List Nat) :
    eatWhitespace sliceOps ⟨past, s⟩ =
      ⟨(s.takeWhile isWs).reverse ++ past, s.dropWhile isWs⟩ := by
  have h := sliceSkipUntil_eq (fun c => !(isWs c)) s past
  simpa [eatWhitespace, sliceOps] using h

/-! ## Claims -/

/-- C1.  The buffer lexer and the stream lexer do NOT produce the same
outcome on every byte sequence: on the input `42`, the buffer pipeline
parses the number `42`, while the stream pipeline lexes only the digit
`4` — after `take_next` empties the one-byte putback, `peek_next`
reports `none` although the digit `2` is still upstream — and then fails
with `Expect::Eof`.  This contradicts the repository's own test suite
(`tests.rs` asserts `parses_to(b"42", int("42"))` through both lexers)
and the differential fuzz harness (`fuzz_targets/all.rs`). -/
theorem c1_mode_divergence_at_42 :
    parseOneSlice [52, 50] = .ok (.number [52, 50] {}, ⟨[50, 52], []⟩) ∧
    parseOneIter [52, 50] = .error (.token .eof) :=
  ⟨rfl, rfl⟩

/-- C2 counterexample.  After the stream lexer reads its first upstream
error (storing it in the error cell and returning `none` for that read),
a subsequent `read` does NOT return `none` as the claim states: it pulls
the next item from the iterator and returns it. -/
theorem c2_counterexample :
    IterLexer.read (⟨[.error (), .ok 97], none, none⟩ : IterLexer Unit) =
      (none, ⟨[.ok 97], none, some ()⟩) ∧
    (IterLexer.read (⟨[.ok 97], none, some ()⟩ : IterLexer Unit)).1 = some 97 ∧
    some 97 ≠ (none : Option Nat) :=
  ⟨rfl, rfl, by simp⟩

/-- C2 (amended).  When the next upstream item is an I/O error, `read`
stores the error in the error cell and returns `none` for that read;
reads are not sticky, so later reads draw from the iterator again. -/
theorem c2_error_read_stores_and_eofs (ε : Type) (e : ε) (tl : List (Except ε Nat))
    (last : Option Nat) (err : Option ε) :
    IterLexer.read ⟨.error e :: tl, last, err⟩ = (none, ⟨tl, last, some e⟩) :=
  rfl

/-- C8 counterexample.  The number lexer returns identical `Parts`
records for the inputs `0` and `1`: the record has no leading-zero
position field (only `dot` and `exp`), so nothing records the offset of
a leading `0`. -/
theorem c8_counterexample :
    SliceLexer.numIgnore (SliceLexer.ofBytes [48]) = .ok ({}, ⟨[48], []⟩) ∧
    SliceLexer.numIgnore (SliceLexer.ofBytes [49]) = .ok ({}, ⟨[49], []⟩) ∧
    (SliceLexer.numIgnore (SliceLexer.ofBytes [48])).map (fun p => p.1) =
      (SliceLexer.numIgnore (SliceLexer.ofBytes [49])).map (fun p => p.1) :=
  ⟨rfl, rfl, rfl⟩

/-- C9.  Parsing the input `{"a": [null, 1, "b"]}` as exactly one value
through the buffer pipeline and serializing the result in compact form
yields exactly `{"a":[null,1,"b"]}`. -/
theorem c9_parse_display_roundtrip :
    (parseOneSlice
        [123, 34, 97, 34, 58, 32, 91, 110, 117, 108, 108, 44, 32, 49, 44, 32,
         34, 98, 34, 93, 125]).map (fun p => displayValue p.1) =
      .ok [123, 34, 97, 34, 58, 91, 110, 117, 108, 108, 44, 49, 44, 34, 98, 34, 93, 125] :=
  rfl

/-- C10.  On an input that is empty or all whitespace, `exactly_one`
fails with the `Value` expectation error whatever the value production
`f` is: the initial `ws_token` lookup finds no token, so `f` is never
invoked. -/
theorem c10_exactly_one_ws_only {α : Type} (s : List Nat) (hws : s.all isWs = true)
    (f : Token → SliceLexer → Except Error (α × SliceLexer)) :
    exactlyOne sliceOps (wsToken sliceOps) f (SliceLexer.ofBytes s) =
      .error (.token .value) := by
  have hdrop : s.dropWhile isWs = [] := by
    induction s with
    | nil => rfl
    | cons c r ih =>
      simp only [List.all_cons, Bool.and_eq_true] at hws
      simp [List.dropWhile, hws.1, ih hws.2]
  have hwt : wsToken sliceOps (SliceLexer.ofBytes s) =
      (none, ⟨(s.takeWhile isWs).reverse, []⟩) := by
    show wsToken sliceOps ⟨[], s⟩ = _
    unfold wsToken
    rw [eatWhitespace_slice s []]
    simp [hdrop, sliceOps, SliceLexer.peekNext]
  unfold exactlyOne
  rw [hwt]

/-- C10 witness: two spaces of input, with a value production that would
succeed if it were ever called. -/
theorem c10_witness :
    exactlyOne sliceOps (wsToken sliceOps)
      (fun _ st => .ok ((), st)) (SliceLexer.ofBytes [32, 32]) =
      .error (.token .value) :=
  c10_exactly_one_ws_only [32, 32] (by decide) _

/-- The fraction/exponent loop returns immediately when the peeked byte
can continue neither with a dot nor with an exponent. -/
theorem numLoop_stop (fuel : Nat) (txt : List Nat) (parts : Parts)
    (past : List Nat) (c : Nat) (r : List Nat)
    (hdot : ¬(c = 46 ∧ parts.is_int = true))
    (hexp : ¬((c = 101 ∨ c = 69) ∧ parts.exp = none)) :
    SliceLexer.numLoop (fuel + 1) txt parts ⟨past, c :: r⟩ =
      .ok ((txt, parts), ⟨past, c :: r⟩) := by
  simp only [SliceLexer.numLoop, SliceLexer.peekNext, List.head?]
  rw [if_neg hdot, if_neg hexp]

/-- C5.  If the first consumed digit is `0`, `num_foreach` consumes no
further integer digits: even when a digit follows directly, the number
ends after the `0` (only `.`, `e`, `E` may continue it).  Consequently
`007` lexes as the three adjacent numbers `0`, `0`, `7`. -/
theorem c5_leading_zero :
    (∀ (past r : List Nat) (d : Nat), isDigit d = true →
      SliceLexer.numForeach ⟨past, 48 :: d :: r⟩ =
        .ok (([48], {}), ⟨48 :: past, d :: r⟩)) ∧
    (SliceLexer.numForeach (SliceLexer.ofBytes [48, 48, 55]) =
        .ok (([48], {}), ⟨[48], [48, 55]⟩) ∧
      SliceLexer.numForeach ⟨[48], [48, 55]⟩ = .ok (([48], {}), ⟨[48, 48], [55]⟩) ∧
      SliceLexer.numForeach ⟨[48, 48], [55]⟩ = .ok (([55], {}), ⟨[55, 48, 48], []⟩)) := by
  constructor
  · intro past r d hd
    simp only [isDigit, Bool.and_eq_true, decide_eq_true_eq] at hd
    show SliceLexer.numLoop 2 [48] {} ⟨48 :: past, d :: r⟩ = _
    rw [numLoop_stop 1 [48] {} (48 :: past) d r
      (by rintro ⟨h46, _⟩; omega)
      (by rintro ⟨h, _⟩; rcases h with h | h <;> omega)]
  · exact ⟨rfl, rfl, rfl⟩

/-- C5 witness: the general clause applied to the first two bytes of
`007`. -/
theorem c5_witness :
    isDigit 48 = true ∧
    SliceLexer.numForeach ⟨[], [48, 48, 55]⟩ = .ok (([48], {}), ⟨[48], [48, 55]⟩) :=
  ⟨by decide, c5_leading_zero.1 [] [55] 48 (by decide)⟩

/-- Reading four hex digits accumulates them most significant first. -/
theorem hexn4_digits (past r : List Nat) (h1 h2 h3 h4 d1 d2 d3 d4 : Nat)
    (e1 : decodeHex h1 = some d1) (e2 : decodeHex h2 = some d2)
    (e3 : decodeHex h3 = some d3) (e4 : decodeHex h4 = some d4) :
    hexn sliceOps 4 0 ⟨past, h1 :: h2 :: h3 :: h4 :: r⟩ =
      .ok (((d1 * 16 + d2) * 16 + d3) * 16 + d4, ⟨h4 :: h3 :: h2 :: h1 :: past, r⟩) := by
  have t1 : sliceOps.takeNext ⟨past, h1 :: h2 :: h3 :: h4 :: r⟩ =
      (some h1, ⟨h1 :: past, h2 :: h3 :: h4 :: r⟩) := rfl
  have t2 : sliceOps.takeNext ⟨h1 :: past, h2 :: h3 :: h4 :: r⟩ =
      (some h2, ⟨h2 :: h1 :: past, h3 :: h4 :: r⟩) := rfl
  have t3 : sliceOps.takeNext ⟨h2 :: h1 :: past, h3 :: h4 :: r⟩ =
      (some h3, ⟨h3 :: h2 :: h1 :: past, h4 :: r⟩) := rfl
  have t4 : sliceOps.takeNext ⟨h3 :: h2 :: h1 :: past, h4 :: r⟩ =
      (some h4, ⟨h4 :: h3 :: h2 :: h1 :: past, r⟩) := rfl
  unfold hexn
  rw [t1]
  dsimp only
  rw [e1]
  dsimp only
  unfold hexn
  rw [t2]
  dsimp only
  rw [e2]
  dsimp only
  unfold hexn
  rw [t3]
  dsimp only
  rw [e3]
  dsimp only
  unfold hexn
  rw [t4]
  dsimp only
  rw [e4]
  dsimp only
  unfold hexn
  norm_num

/-- `escape` after a `u` leader reads four hex digits into a Unicode
escape. -/
theorem escapeRead_unicode (past rest : List Nat) (L : Nat) (st' : SliceLexer)
    (hhex : hexn sliceOps 4 0 ⟨117 :: past, rest⟩ = .ok (L, st')) :
    escapeRead sliceOps ⟨past, 117 :: rest⟩ = .ok (.unicode L, st') := by
  have h117 : sliceOps.takeNext ⟨past, 117 :: rest⟩ = (some 117, ⟨117 :: past, rest⟩) := rfl
  unfold escapeRead
  rw [h117]
  dsimp only
  rw [show Escape.tryFrom 117 = some (.unicode 0) from rfl]
  dsimp only
  unfold escapeBody
  rw [hhex]
  rfl

/-- Paired decoding branch of `escape_char`: a high surrogate whose
continuation reads as a Unicode escape with a low-surrogate value `L`
combines into a supplementary code point. -/
theorem escapeChar_pair (H L : Nat) (hH1 : 0xD800 ≤ H) (hH2 : H ≤ 0xDBFF)
    (past rest : List Nat) (st' : SliceLexer)
    (hread : escapeRead sliceOps ⟨92 :: past, rest⟩ = .ok (.unicode L, st'))
    (hL1 : 0xDC00 ≤ L) (hL2 : L ≤ 0xDFFF) :
    escapeChar sliceOps (.unicode H) ⟨past, 92 :: rest⟩ =
      .ok (.unicode ((H - 0xD800) * 0x400 + (L - 0xDC00) + 0x10000), st') := by
  have hread' : escapeRead sliceOps
      ((sliceOps.takeNext ⟨past, 92 :: rest⟩).2) = .ok (.unicode L, st') := hread
  have hchar : charFromU32 ((H - 0xD800) * 0x400 + (L - 0xDC00) + 0x10000) =
      some ((H - 0xD800) * 0x400 + (L - 0xDC00) + 0x10000) := by
    unfold charFromU32
    rw [if_pos (by omega)]
  unfold escapeChar
  dsimp only
  rw [if_pos ⟨hH1, hH2⟩]
  rw [if_neg (by intro h; exact h rfl)]
  rw [hread']
  dsimp only
  rw [if_pos ⟨hL1, hL2⟩]
  rw [hchar]

/-- A high surrogate whose continuation reads as a Unicode escape with a
value outside the low-surrogate range fails with
`ExpectedLowSurrogate`. -/
theorem escapeChar_badLow (H L : Nat) (hH1 : 0xD800 ≤ H) (hH2 : H ≤ 0xDBFF)
    (past rest : List Nat) (st' : SliceLexer)
    (hread : escapeRead sliceOps ⟨92 :: past, rest⟩ = .ok (.unicode L, st'))
    (hout : L < 0xDC00 ∨ 0xDFFF < L) :
    escapeChar sliceOps (.unicode H) ⟨past, 92 :: rest⟩ =
      .error .expectedLowSurrogate := by
  have hread' : escapeRead sliceOps
      ((sliceOps.takeNext ⟨past, 92 :: rest⟩).2) = .ok (.unicode L, st') := hread
  unfold escapeChar
  dsimp only
  rw [if_pos ⟨hH1, hH2⟩]
  rw [if_neg (by intro h; exact h rfl)]
  rw [hread']
  dsimp only
  rw [if_neg (by omega)]

/-- A high surrogate not followed by a backslash fails with
`ExpectedLowSurrogate`. -/
theorem escapeChar_noBackslash (H : Nat) (hH1 : 0xD800 ≤ H) (hH2 : H ≤ 0xDBFF)
    (past r : List Nat) (c : Nat) (hc : c ≠ 92) :
    escapeChar sliceOps (.unicode H) ⟨past, c :: r⟩ = .error .expectedLowSurrogate := by
  have htake : sliceOps.takeNext ⟨past, c :: r⟩ = (some c, ⟨c :: past, r⟩) := rfl
  unfold escapeChar
  dsimp only
  rw [if_pos ⟨hH1, hH2⟩, htake]
  rw [if_pos (by simp [hc])]

/-- A high surrogate at the end of the input fails with
`ExpectedLowSurrogate`. -/
theorem escapeChar_eofAfterHigh (H : Nat) (hH1 : 0xD800 ≤ H) (hH2 : H ≤ 0xDBFF)
    (past : List Nat) :
    escapeChar sliceOps (.unicode H) ⟨past, []⟩ = .error .expectedLowSurrogate := by
  have htake : sliceOps.takeNext ⟨past, []⟩ = (none, ⟨past, []⟩) := rfl
  unfold escapeChar
  dsimp only
  rw [if_pos ⟨hH1, hH2⟩, htake]
  rw [if_pos (by simp)]

/-- A low surrogate reached as the primary escape fails with
`InvalidChar`. -/
theorem escapeChar_loneLow (L : Nat) (past r : List Nat)
    (hL1 : 0xDC00 ≤ L) (hL2 : L ≤ 0xDFFF) :
    escapeChar sliceOps (.unicode L) ⟨past, r⟩ = .error (.invalidChar L) := by
  unfold escapeChar
  dsimp only
  rw [if_neg (by omega)]
  simp only [charFromU32]
  rw [if_neg (by omega)]

/-- C4.  `escape_char` on a hex escape whose value `H` is a high
surrogate requires a literal `\u` plus four hex digits with value `L`:
if `L` is a low surrogate the result is the code point
`(H - 0xD800) * 0x400 + (L - 0xDC00) + 0x10000`; if the backslash is
missing (or the input is exhausted) or `L` is outside the low-surrogate
range, it fails with `ExpectedLowSurrogate`.  A low surrogate reached as
the primary escape fails with `InvalidChar`. -/
theorem c4_escape_char_surrogates :
    (∀ (H : Nat), 0xD800 ≤ H → H ≤ 0xDBFF →
      (∀ (past r : List Nat) (h1 h2 h3 h4 d1 d2 d3 d4 : Nat),
        decodeHex h1 = some d1 → decodeHex h2 = some d2 →
        decodeHex h3 = some d3 → decodeHex h4 = some d4 →
        (0xDC00 ≤ ((d1 * 16 + d2) * 16 + d3) * 16 + d4 →
          ((d1 * 16 + d2) * 16 + d3) * 16 + d4 ≤ 0xDFFF →
          escapeChar sliceOps (.unicode H) ⟨past, 92 :: 117 :: h1 :: h2 :: h3 :: h4 :: r⟩ =
            .ok (.unicode ((H - 0xD800) * 0x400 +
                ((((d1 * 16 + d2) * 16 + d3) * 16 + d4) - 0xDC00) + 0x10000),
              ⟨h4 :: h3 :: h2 :: h1 :: 117 :: 92 :: past, r⟩)) ∧
        (((((d1 * 16 + d2) * 16 + d3) * 16 + d4) < 0xDC00 ∨
            0xDFFF < ((d1 * 16 + d2) * 16 + d3) * 16 + d4) →
          escapeChar sliceOps (.unicode H) ⟨past, 92 :: 117 :: h1 :: h2 :: h3 :: h4 :: r⟩ =
            .error .expectedLowSurrogate)) ∧
      (∀ (past r : List Nat) (c : Nat), c ≠ 92 →
        escapeChar sliceOps (.unicode H) ⟨past, c :: r⟩ = .error .expectedLowSurrogate) ∧
      (∀ past : List Nat,
        escapeChar sliceOps (.unicode H) ⟨past, []⟩ = .error .expectedLowSurrogate)) ∧
    (∀ (L : Nat) (past r : List Nat), 0xDC00 ≤ L → L ≤ 0xDFFF →
      escapeChar sliceOps (.unicode L) ⟨past, r⟩ = .error (.invalidChar L)) :=
  ⟨fun H hH1 hH2 =>
    ⟨fun past r h1 h2 h3 h4 d1 d2 d3 d4 e1 e2 e3 e4 =>
      ⟨fun hL1 hL2 =>
        escapeChar_pair H _ hH1 hH2 past (117 :: h1 :: h2 :: h3 :: h4 :: r) _
          (escapeRead_unicode (92 :: past) (h1 :: h2 :: h3 :: h4 :: r) _ _
            (hexn4_digits (117 :: 92 :: past) r h1 h2 h3 h4 d1 d2 d3 d4 e1 e2 e3 e4))
          hL1 hL2,
       fun hout =>
        escapeChar_badLow H _ hH1 hH2 past (117 :: h1 :: h2 :: h3 :: h4 :: r) _
          (escapeRead_unicode (92 :: past) (h1 :: h2 :: h3 :: h4 :: r) _ _
            (hexn4_digits (117 :: 92 :: past) r h1 h2 h3 h4 d1 d2 d3 d4 e1 e2 e3 e4))
          hout⟩,
     fun past r c hc => escapeChar_noBackslash H hH1 hH2 past r c hc,
     fun past => escapeChar_eofAfterHigh H hH1 hH2 past⟩,
   fun L past r hL1 hL2 => escapeChar_loneLow L past r hL1 hL2⟩

/-- Validity of the positional markers relative to the captured text:
`dot` points at a `.` and `exp` at an `e`/`E`, never at offset 0. -/
def PartsValid (txt : List Nat) (parts : Parts) : Prop :=
  (∀ i, parts.dot = some i → 0 < i ∧ txt.get? i = some 46) ∧
  (∀ i, parts.exp = some i → 0 < i ∧ (txt.get? i = some 101 ∨ txt.get? i = some 69))

/-- The fraction/exponent loop preserves validity of the positional
markers. -/
theorem numLoop_partsValid :
    ∀ (fuel : Nat) (txt : List Nat) (parts : Parts) (st : SliceLexer)
      (res : (List Nat × Parts) × SliceLexer),
      SliceLexer.numLoop fuel txt parts st = .ok res →
      txt ≠ [] → PartsValid txt parts → res.1.1 ≠ [] ∧ PartsValid res.1.1 res.1.2 := by
  intro fuel
  induction fuel with
  | zero =>
    intro txt parts st res h hne hv
    unfold SliceLexer.numLoop at h
    cases h
    exact ⟨hne, hv⟩
  | succ fuel ih =>
    intro txt parts st res h hne hv
    have hlen : 0 < txt.length := List.length_pos.mpr hne
    unfold SliceLexer.numLoop at h
    split at h
    · cases h
      exact ⟨hne, hv⟩
    · rename_i c hpeek
      dsimp only at h
      split at h
      · rename_i hdot
        split at h
        · cases h
        · rename_i hz
          have hint : parts.dot = none ∧ parts.exp = none := by
            have := hdot.2
            simp only [Parts.is_int, Bool.and_eq_true, Option.isNone_iff_eq_none] at this
            exact this
          refine ih _ _ _ _ h (by simp) ⟨?_, ?_⟩
          · intro i hi
            simp only [Option.some.injEq] at hi
            subst hi
            refine ⟨hlen, ?_⟩
            rw [List.get?_append_right (le_refl _)]
            simp
          · intro i hi
            rw [hint.2] at hi
            cases hi
      · split at h
        · rename_i hexp
          split at h
          · cases h
          · rename_i hz
            refine ih _ _ _ _ h (by simp) ⟨?_, ?_⟩
            · intro i hi
              obtain ⟨hpos, hget⟩ := hv.1 i hi
              obtain ⟨hilt, -⟩ := List.get?_eq_some.mp hget
              exact ⟨hpos, by rw [List.get?_append hilt]; exact hget⟩
            · intro i hi
              simp only [Option.some.injEq] at hi
              subst hi
              refine ⟨hlen, ?_⟩
              rw [List.get?_append_right (le_refl _)]
              simpa using hexp.1
        · cases h
          exact ⟨hne, hv⟩

/-- C8 (amended).  The number parts record has two optional position
fields — the decimal point and the exponent marker — each recorded as an
offset into the captured textual representation (`dot` points at the
`.`, `exp` at the `e`/`E`, and neither is ever offset 0); no
leading-zero position is recorded. -/
theorem c8_parts_dot_exp_offsets (st : SliceLexer) (txt : List Nat) (parts : Parts)
    (st' : SliceLexer) (h : SliceLexer.numForeach st = .ok ((txt, parts), st')) :
    (∀ i, parts.dot = some i → 0 < i ∧ txt.get? i = some 46) ∧
    (∀ i, parts.exp = some i → 0 < i ∧ (txt.get? i = some 101 ∨ txt.get? i = some 69)) := by
  have hval : ∀ t : List Nat, PartsValid t ({} : Parts) := fun t =>
    ⟨fun i hi => (by cases hi), fun i hi => (by cases hi)⟩
  unfold SliceLexer.numForeach at h
  split at h
  · cases h
  · rename_i c st₂ htake
    split at h
    · exact (numLoop_partsValid 2 [48] {} st₂ ((txt, parts), st') h (by simp)
        (hval [48])).2
    · split at h
      · exact (numLoop_partsValid 2 _ {} _ ((txt, parts), st') h (by simp)
        (hval _)).2
      · cases h

/-- `ws_token` on whitespace-only input yields no token. -/
theorem wsToken_slice_none (past s : List Nat) (h : s.dropWhile isWs = []) :
    wsToken sliceOps ⟨past, s⟩ = (none, ⟨(s.takeWhile isWs).reverse ++ past, []⟩) := by
  unfold wsToken
  rw [eatWhitespace_slice, h]
  rfl

/-- `ws_token` consumes a closing bracket or brace (a single-character
token) after skipping whitespace. -/
theorem wsToken_slice_close (past s r : List Nat) (e : Token) (eb : Nat)
    (heb : (e = .rsquare ∧ eb = 93) ∨ (e = .rcurly ∧ eb = 125))
    (h : s.dropWhile isWs = eb :: r) :
    wsToken sliceOps ⟨past, s⟩ =
      (some e, ⟨eb :: ((s.takeWhile isWs).reverse ++ past), r⟩) := by
  rcases heb with ⟨he, hb⟩ | ⟨he, hb⟩ <;> subst he <;> subst hb <;>
    · unfold wsToken
      rw [eatWhitespace_slice, h]
      rfl

/-- C7.  The sequence driver's protocol, for an end token `e` in
`{ ], } }`: with no leading token it fails `ValueOrEnd`; if the first
token is `e` it consumes it and succeeds with an empty sequence; after
each item, a missing token fails `CommaOrEnd`, the end token succeeds, a
comma followed by no token fails `Value`, a comma followed by a token
continues with the next item, and any other token fails `CommaOrEnd`. -/
theorem c7_seq_protocol :
    (∀ {α : Type} (e : Token) (f : α → Token → SliceLexer → Except Error (α × SliceLexer))
        (acc : α) (fuel : Nat) (past s : List Nat),
      (e = .rsquare ∨ e = .rcurly) → s.dropWhile isWs = [] →
      seq sliceOps fuel e (wsToken sliceOps) f acc ⟨past, s⟩ =
        .error (.token .valueOrEnd)) ∧
    (∀ {α : Type} (e : Token) (eb : Nat)
        (f : α → Token → SliceLexer → Except Error (α × SliceLexer))
        (acc : α) (fuel : Nat) (past s r : List Nat),
      ((e = .rsquare ∧ eb = 93) ∨ (e = .rcurly ∧ eb = 125)) →
      s.dropWhile isWs = eb :: r →
      seq sliceOps fuel e (wsToken sliceOps) f acc ⟨past, s⟩ =
        .ok (acc, ⟨eb :: ((s.takeWhile isWs).reverse ++ past), r⟩)) ∧
    (∀ {α : Type} (e : Token) (f : α → Token → SliceLexer → Except Error (α × SliceLexer))
        (acc acc' : α) (fuel : Nat) (t : Token) (st st₂ : SliceLexer),
      (e = .rsquare ∨ e = .rcurly) →
      f acc t st = .ok (acc', st₂) →
      ((wsToken sliceOps st₂).1 = none →
        seqLoop sliceOps e (wsToken sliceOps) f (fuel + 1) acc t st =
          .error (.token .commaOrEnd)) ∧
      (∀ st₃, wsToken sliceOps st₂ = (some e, st₃) →
        seqLoop sliceOps e (wsToken sliceOps) f (fuel + 1) acc t st = .ok (acc', st₃)) ∧
      (∀ st₃, wsToken sliceOps st₂ = (some .comma, st₃) → (wsToken sliceOps st₃).1 = none →
        seqLoop sliceOps e (wsToken sliceOps) f (fuel + 1) acc t st =
          .error (.token .value)) ∧
      (∀ st₃ t'' st₄, wsToken sliceOps st₂ = (some .comma, st₃) →
        wsToken sliceOps st₃ = (some t'', st₄) →
        seqLoop sliceOps e (wsToken sliceOps) f (fuel + 1) acc t st =
          seqLoop sliceOps e (wsToken sliceOps) f fuel acc' t'' st₄) ∧
      (∀ t' st₃, wsToken sliceOps st₂ = (some t', st₃) → t' ≠ e → t' ≠ .comma →
        seqLoop sliceOps e (wsToken sliceOps) f (fuel + 1) acc t st =
          .error (.token .commaOrEnd))) := by
  refine ⟨fun e f acc fuel past s he hdrop => ?_,
    fun e eb f acc fuel past s r heb hdrop => ?_,
    fun e f acc acc' fuel t st st₂ he hf => ⟨?_, ?_, ?_, ?_, ?_⟩⟩
  · unfold seq
    rw [wsToken_slice_none past s hdrop]
  · unfold seq
    rw [wsToken_slice_close past s r e eb heb hdrop]
    dsimp only
    rw [if_pos rfl]
  · intro hnone
    rcases hw : wsToken sliceOps st₂ with ⟨o, st₃⟩
    rw [hw] at hnone
    simp only at hnone
    subst hnone
    conv_lhs => unfold seqLoop
    rw [hf]
    dsimp only
    rw [hw]
  · intro st₃ hw
    conv_lhs => unfold seqLoop
    rw [hf]
    dsimp only
    rw [hw]
    dsimp only
    rw [if_pos rfl]
  · intro st₃ hw hnone
    rcases hw2 : wsToken sliceOps st₃ with ⟨o, st₄⟩
    rw [hw2] at hnone
    simp only at hnone
    subst hnone
    conv_lhs => unfold seqLoop
    rw [hf]
    dsimp only
    rw [hw]
    dsimp only
    rw [if_neg (by rcases he with he | he <;> subst he <;> simp), if_pos rfl]
    rw [hw2]
  · intro st₃ t'' st₄ hw hw2
    conv_lhs => unfold seqLoop
    rw [hf]
    dsimp only
    rw [hw]
    dsimp only
    rw [if_neg (by rcases he with he | he <;> subst he <;> simp), if_pos rfl]
    rw [hw2]
  · intro t' st₃ hw hne hnc
    conv_lhs => unfold seqLoop
    rw [hf]
    dsimp only
    rw [hw]
    dsimp only
    rw [if_neg hne, if_neg hnc]

/-- C7 witness: the protocol steps instantiated on concrete inputs — an
empty array input, a whitespace-only input, and the loop steps on the
remains of `[1]`, `[1`, `[1,`, `[1,2`, `[1;` with a trivial item
consumer. -/
theorem c7_witness :
    seq sliceOps 5 .rsquare (wsToken sliceOps)
        (fun (a : Unit) _ st => .ok (a, st)) () ⟨[], [32]⟩ =
      .error (.token .valueOrEnd) ∧
    seq sliceOps 5 .rsquare (wsToken sliceOps)
        (fun (a : Unit) _ st => .ok (a, st)) () ⟨[], [93]⟩ = .ok ((), ⟨[93], []⟩) ∧
    seqLoop sliceOps .rsquare (wsToken sliceOps)
        (fun (a : Unit) _ st => .ok (a, st)) 5 () .digit ⟨[], []⟩ =
      .error (.token .commaOrEnd) ∧
    seqLoop sliceOps .rsquare (wsToken sliceOps)
        (fun (a : Unit) _ st => .ok (a, st)) 5 () .digit ⟨[], [93]⟩ =
      .ok ((), ⟨[93], []⟩) ∧
    seqLoop sliceOps .rsquare (wsToken sliceOps)
        (fun (a : Unit) _ st => .ok (a, st)) 5 () .digit ⟨[], [44]⟩ =
      .error (.token .value) ∧
    seqLoop sliceOps .rsquare (wsToken sliceOps)
        (fun (a : Unit) _ st => .ok (a, st)) 5 () .digit ⟨[], [44, 50]⟩ =
      seqLoop sliceOps .rsquare (wsToken sliceOps)
        (fun (a : Unit) _ st => .ok (a, st)) 4 () .digit ⟨[44], [50]⟩ ∧
    seqLoop sliceOps .rsquare (wsToken sliceOps)
        (fun (a : Unit) _ st => .ok (a, st)) 5 () .digit ⟨[], [59]⟩ =
      .error (.token .commaOrEnd) := by
  refine ⟨c7_seq_protocol.1 .rsquare (fun (a : Unit) _ st => .ok (a, st)) () 5 [] [32]
      (Or.inl rfl) (by decide),
    ?_, ?_, ?_, ?_, ?_, ?_⟩
  · have h := c7_seq_protocol.2.1 .rsquare 93 (fun (a : Unit) _ st => .ok (a, st))
      () 5 [] [93] [] (Or.inl ⟨rfl, rfl⟩) (by decide)
    simpa using h
  · exact (c7_seq_protocol.2.2 .rsquare (fun (a : Unit) _ st => .ok (a, st)) () () 4
      .digit ⟨[], []⟩ ⟨[], []⟩ (Or.inl rfl) rfl).1 (by decide)
  · have h := ((c7_seq_protocol.2.2 .rsquare (fun (a : Unit) _ st => .ok (a, st)) () () 4
      .digit ⟨[], [93]⟩ ⟨[], [93]⟩ (Or.inl rfl) rfl).2.1) ⟨[93], []⟩ (by decide)
    simpa using h
  · exact ((c7_seq_protocol.2.2 .rsquare (fun (a : Unit) _ st => .ok (a, st)) () () 4
      .digit ⟨[], [44]⟩ ⟨[], [44]⟩ (Or.inl rfl) rfl).2.2.1) ⟨[44], []⟩ (by decide) (by decide)
  · exact ((c7_seq_protocol.2.2 .rsquare (fun (a : Unit) _ st => .ok (a, st)) () () 4
      .digit ⟨[], [44, 50]⟩ ⟨[], [44, 50]⟩ (Or.inl rfl) rfl).2.2.2.1)
      ⟨[44], [50]⟩ .digit ⟨[44], [50]⟩ (by decide) (by decide)
  · exact ((c7_seq_protocol.2.2 .rsquare (fun (a : Unit) _ st => .ok (a, st)) () () 4
      .digit ⟨[], [59]⟩ ⟨[], [59]⟩ (Or.inl rfl) rfl).2.2.2.2)
      .error ⟨[], [59]⟩ (by decide) (by decide) (by decide)

/-- C4 witness: the pair `\uD801` + `\uDC37` combines to U+10437; the
same low surrogate reached as the primary escape fails with
`InvalidChar`, and `\uD801` followed by a plain `a` fails with
`ExpectedLowSurrogate`. -/
theorem c4_witness :
    escapeChar sliceOps (.unicode 0xD801) ⟨[], [92, 117, 68, 67, 51, 55]⟩ =
      .ok (.unicode 0x10437, ⟨[55, 51, 67, 68, 117, 92], []⟩) ∧
    escapeChar sliceOps (.unicode 0xDC37) ⟨[], []⟩ = .error (.invalidChar 0xDC37) ∧
    escapeChar sliceOps (.unicode 0xD801) ⟨[], [97]⟩ = .error .expectedLowSurrogate := by
  refine ⟨?_, ?_, ?_⟩
  · have h := ((c4_escape_char_surrogates.1 0xD801 (by decide) (by decide)).1
      [] [] 68 67 51 55 13 12 3 7 (by decide) (by decide) (by decide) (by decide)).1
      (by decide) (by decide)
    simpa using h
  · exact c4_escape_char_surrogates.2 0xDC37 [] [] (by decide) (by decide)
  · exact (c4_escape_char_surrogates.1 0xD801 (by decide) (by decide)).2.1 [] [] 97 (by decide)

/-- C8 witness: lexing `3.14` records `dot = some 1`, an offset pointing
at the `.` inside the captured text `3.14`. -/
theorem c8_witness :
    SliceLexer.numForeach (SliceLexer.ofBytes [51, 46, 49, 52]) =
      .ok (([51, 46, 49, 52], ⟨some 1, none⟩), ⟨[52, 49, 46, 51], []⟩) ∧
    (0 < 1 ∧ [51, 46, 49, 52].get? 1 = some 46) :=
  ⟨rfl,
   (c8_parts_dot_exp_offsets (SliceLexer.ofBytes [51, 46, 49, 52])
      [51, 46, 49, 52] ⟨some 1, none⟩ ⟨[52, 49, 46, 51], []⟩ rfl).1 1 rfl⟩

/-- `State::finish` succeeds only by taking a closing quote from the
input. -/
theorem finish_takeNext (O : LexOps σ) (s : StrState) (st st' : σ)
    (h : StrState.finish O s st = .ok st') : O.takeNext st = (some 34, st') := by
  unfold StrState.finish at h
  split at h
  · cases h
  · split at h
    · cases h
    · split at h
      · rename_i c st₂ htk
        split at h
        · rename_i hc
          cases h
          subst hc
          exact htk
        · cases h
      · cases h

/-- A successful slice `take_next` splits one byte off the slice. -/
theorem takeNext_slice_some (st : SliceLexer) (c : Nat) (st' : SliceLexer)
    (h : SliceLexer.takeNext st = (some c, st')) : st.rest = c :: st'.rest := by
  unfold SliceLexer.takeNext at h
  split at h
  · cases h
  · rename_i c' r heq
    cases h
    simp [heq]

/-- Slice `write_until`/`foreach_until` consumes exactly the collected
bytes from the slice. -/
theorem scanUntil_slice_rest {τ : Type} (stop : τ → Nat → τ × Bool) (t : τ)
    (st : SliceLexer) :
    st.rest =
      (SliceLexer.scanUntil stop t st).1 ++ (SliceLexer.scanUntil stop t st).2.2.rest := by
  obtain ⟨pre, t', rest, hsplit, hrun⟩ := scanCore_split stop st.rest t
  unfold SliceLexer.scanUntil
  rw [hrun]
  exact hsplit

/-- `hexn` consumes input, for any consumption order `C` that is
reflexive, transitive, and contains each successful `take_next` step. -/
theorem hexn_consumes (O : LexOps σ) (C : σ → σ → Prop)
    (hCr : ∀ a, C a a)
    (hCC : ∀ a b c, C a b → C b c → C a c)
    (hCt : ∀ a c' b, O.takeNext a = (some c', b) → C a b) :
    ∀ (n acc : Nat) (st : σ) (v : Nat) (st' : σ),
      hexn O n acc st = .ok (v, st') → C st st' := by
  intro n
  induction n with
  | zero =>
    intro acc st v st' h
    cases h
    exact hCr st
  | succ n ih =>
    intro acc st v st' h
    unfold hexn at h
    split at h
    · cases h
    · rename_i hb st₂ htk
      split at h
      · cases h
      · rename_i hv hdec
        exact hCC _ _ _ (hCt _ _ _ htk) (ih _ _ _ _ h)

/-- Escape-body reading consumes input. -/
theorem escapeBody_consumes (O : LexOps σ) (C : σ → σ → Prop)
    (hCr : ∀ a, C a a)
    (hCC : ∀ a b c, C a b → C b c → C a c)
    (hCt : ∀ a c' b, O.takeNext a = (some c', b) → C a b)
    (e : Escape) (st : σ) (e' : Escape) (st' : σ)
    (h : escapeBody O e st = .ok (e', st')) : C st st' := by
  unfold escapeBody at h
  match e with
  | .unicode u =>
    dsimp only at h
    cases hx : hexn O 4 0 st with
    | error e => rw [hx] at h; cases h
    | ok p =>
      obtain ⟨v, st₂⟩ := p
      rw [hx] at h
      cases h
      exact hexn_consumes O C hCr hCC hCt 4 0 st v _ hx
  | .byte b =>
    dsimp only at h
    cases hx : hexn O 2 0 st with
    | error e => rw [hx] at h; cases h
    | ok p =>
      obtain ⟨v, st₂⟩ := p
      rw [hx] at h
      cases h
      exact hexn_consumes O C hCr hCC hCt 2 0 st v _ hx
  | .lit l =>
    cases h
    exact hCr st

/-- `Lex::escape` consumes input. -/
theorem escapeRead_consumes (O : LexOps σ) (C : σ → σ → Prop)
    (hCr : ∀ a, C a a)
    (hCC : ∀ a b c, C a b → C b c → C a c)
    (hCt : ∀ a c' b, O.takeNext a = (some c', b) → C a b)
    (st : σ) (e : Escape) (st' : σ)
    (h : escapeRead O st = .ok (e, st')) : C st st' := by
  unfold escapeRead at h
  split at h
  · cases h
  · rename_i typ st₂ htk
    split at h
    · cases h
    · rename_i e₀ htf
      exact hCC _ _ _ (hCt _ _ _ htk)
        (escapeBody_consumes O C hCr hCC hCt e₀ st₂ e st' h)

/-- `escape_char` consumes input. -/
theorem escapeChar_consumes (O : LexOps σ) (C : σ → σ → Prop)
    (hCr : ∀ a, C a a)
    (hCC : ∀ a b c, C a b → C b c → C a c)
    (hCt : ∀ a c' b, O.takeNext a = (some c', b) → C a b)
    (e : Escape) (st : σ) (c : HexChar) (st' : σ)
    (h : escapeChar O e st = .ok (c, st')) : C st st' := by
  unfold escapeChar at h
  match e with
  | .unicode high =>
    dsimp only at h
    split at h
    · split at h
      · cases h
      · rename_i hsur h92
        have h92' : (O.takeNext st).1 = some 92 := not_not.mp h92
        have htk : O.takeNext st = (some 92, (O.takeNext st).2) := by
          rw [← h92']
        split at h
        · cases h
        · rename_i low st₂ hrd
          have hC2 := escapeRead_consumes O C hCr hCC hCt _ _ _ hrd
          split at h
          · split at h
            · rename_i cc hchar
              cases h
              exact hCC _ _ _ (hCt _ _ _ htk) hC2
            · cases h
          · cases h
        · cases h
    · split at h
      · rename_i cc hchar
        cases h
        exact hCr st
      · cases h
  | .byte b =>
    cases h
    exact hCr st
  | .lit l =>
    dsimp only at h
    split at h
    · cases h
      exact hCr st
    · cases h

/-- Decoding one full escape sequence consumes input. -/
theorem escapeNext_consumes (O : LexOps σ) (C : σ → σ → Prop)
    (hCr : ∀ a, C a a)
    (hCC : ∀ a b c, C a b → C b c → C a c)
    (hCt : ∀ a c' b, O.takeNext a = (some c', b) → C a b)
    (st : σ) (c : Nat) (st' : σ)
    (h : escapeNext O st = .ok (c, st')) : C st st' := by
  unfold escapeNext at h
  split at h
  · cases h
  · rename_i e st₂ hrd
    have hC1 := escapeRead_consumes O C hCr hCC hCt _ _ _ hrd
    split at h
    · cases h
    · rename_i cc st₃ hch
      cases h
      exact hCC _ _ _ hC1 (escapeChar_consumes O C hCr hCC hCt _ _ _ _ hch)
    · rename_i bb st₃ hch
      cases h
      exact hCC _ _ _ hC1 (escapeChar_consumes O C hCr hCC hCt _ _ _ _ hch)

/-- Decoding one full escape sequence on the slice lexer consumes a
prefix of the slice. -/
theorem escapeNext_slice_consumes (st : SliceLexer) (c : Nat) (st' : SliceLexer)
    (h : escapeNext sliceOps st = .ok (c, st')) : ∃ p, st.rest = p ++ st'.rest :=
  escapeNext_consumes sliceOps (fun a b => ∃ p, a.rest = p ++ b.rest)
    (fun a => ⟨[], rfl⟩)
    (fun a b c ⟨p, hp⟩ ⟨q, hq⟩ => ⟨p ++ q, by rw [hp, hq, List.append_assoc]⟩)
    (fun a c' b htk => ⟨[c'], takeNext_slice_some a c' b htk⟩)
    st c st' h

/-- A successful stream `take_next` drains the putback byte off the
stream. -/
theorem takeNext_iter_some {ε : Type} (st : IterLexer ε) (c : Nat) (st' : IterLexer ε)
    (h : IterLexer.takeNext st = (some c, st')) :
    IterLexer.stream st = .ok c :: IterLexer.stream st' := by
  unfold IterLexer.takeNext at h
  injection h with h1 h2
  subst h2
  simp [IterLexer.stream, h1]

/-- Decoding one full escape sequence on the stream lexer consumes a
prefix of the stream. -/
theorem escapeNext_iter_consumes {ε : Type} (st : IterLexer ε) (c : Nat)
    (st' : IterLexer ε) (h : escapeNext (iterOps ε) st = .ok (c, st')) :
    ∃ p : List Nat, IterLexer.stream st = p.map Except.ok ++ IterLexer.stream st' :=
  escapeNext_consumes (iterOps ε)
    (fun a b => ∃ p : List Nat, IterLexer.stream a = p.map Except.ok ++ IterLexer.stream b)
    (fun a => ⟨[], rfl⟩)
    (fun a b c ⟨p, hp⟩ ⟨q, hq⟩ =>
      ⟨p ++ q, by rw [hp, hq, List.map_append, List.append_assoc]⟩)
    (fun a c' b htk => ⟨[c'], takeNext_iter_some a c' b htk⟩)
    st c st' h

/-- Generic closing-quote analysis of the `str_fold` loop, for a
consumption order `C` and a quote event `Q` ("the consumed region ends
with a closing quote"): if `take_next` and `write_until` steps lie in
`C`, taking a quote establishes `Q`, `C`-steps compose on the left of
`Q`, and the escape callback only consumes input, then every success of
the loop fires the quote event between entry and exit states. -/
theorem strFoldLoop_quote {T : Type} (O : LexOps σ) (C Q : σ → σ → Prop)
    (hCC : ∀ a b c, C a b → C b c → C a c)
    (hCt : ∀ a c' b, O.takeNext a = (some c', b) → C a b)
    (hCw : ∀ (f : Unit → Nat → Unit × Bool) (a : σ), C a (O.writeUntil f () a).2.2)
    (hQq : ∀ a b, O.takeNext a = (some 34, b) → Q a b)
    (hCQ : ∀ a b c, C a b → Q b c → Q a c)
    (onString : List Nat → T → Except StrError T)
    (onEscape : T → σ → Except StrError (T × σ))
    (hesc : ∀ out st out' st', onEscape out st = .ok (out', st') → C st st') :
    ∀ (fuel : Nat) (out : T) (st : σ) (out' : T) (st' : σ),
      strFoldLoop O onString onEscape fuel out st = .ok (out', st') → Q st st' := by
  intro fuel
  induction fuel with
  | zero =>
    intro out st out' st' h
    cases h
  | succ fuel ih =>
    intro out st out' st' h
    unfold strFoldLoop at h
    cases hoe : onEscape out st with
    | error e => rw [hoe] at h; cases h
    | ok p =>
      obtain ⟨out₁, st₁⟩ := p
      rw [hoe] at h
      dsimp only at h
      have hC1 : C st st₁ := hesc _ _ _ _ hoe
      rcases hw : O.writeUntil (fun u c => (u, stringEnd c)) () st₁ with ⟨bytes, u, st₂⟩
      rw [hw] at h
      dsimp only at h
      have hC2 : C st₁ st₂ := by
        have := hCw (fun u c => (u, stringEnd c)) st₁
        rw [hw] at this
        exact this
      cases hos : onString bytes out₁ with
      | error e => rw [hos] at h; cases h
      | ok out₂ =>
        rw [hos] at h
        dsimp only at h
        rcases htk : O.takeNext st₂ with ⟨o, st₃⟩
        rw [htk] at h
        cases o with
        | none => cases h
        | some cb =>
          dsimp only at h
          split at h
          · rename_i hcb
            subst hcb
            have hQ : Q st₃ st' := ih _ _ _ _ h
            exact hCQ _ _ _ hC1 (hCQ _ _ _ hC2 (hCQ _ _ _ (hCt _ _ _ htk) hQ))
          · split at h
            · rename_i hne hcb
              subst hcb
              cases h
              have hQ : Q st₂ st' := hQq _ _ htk
              exact hCQ _ _ _ hC1 (hCQ _ _ _ hC2 hQ)
            · cases h

/-- Generic closing-quote analysis of `str_fold` itself. -/
theorem strFold_quote {T : Type} (O : LexOps σ) (C Q : σ → σ → Prop)
    (hCC : ∀ a b c, C a b → C b c → C a c)
    (hCt : ∀ a c' b, O.takeNext a = (some c', b) → C a b)
    (hCw : ∀ (f : Unit → Nat → Unit × Bool) (a : σ), C a (O.writeUntil f () a).2.2)
    (hQq : ∀ a b, O.takeNext a = (some 34, b) → Q a b)
    (hCQ : ∀ a b c, C a b → Q b c → Q a c)
    (onString : List Nat → T → Except StrError T)
    (onEscape : T → σ → Except StrError (T × σ))
    (hesc : ∀ out st out' st', onEscape out st = .ok (out', st') → C st st')
    (out : T) (st : σ) (out' : T) (st' : σ)
    (h : strFold O onString onEscape out st = .ok (out', st')) : Q st st' := by
  unfold strFold at h
  rcases hw : O.writeUntil (fun u c => (u, stringEnd c)) () st with ⟨bytes, u, st₂⟩
  rw [hw] at h
  dsimp only at h
  have hC2 : C st st₂ := by
    have := hCw (fun u c => (u, stringEnd c)) st
    rw [hw] at this
    exact this
  cases hos : onString bytes out with
  | error e => rw [hos] at h; cases h
  | ok out₂ =>
    rw [hos] at h
    dsimp only at h
    rcases htk : O.takeNext st₂ with ⟨o, st₃⟩
    rw [htk] at h
    cases o with
    | none => cases h
    | some cb =>
      dsimp only at h
      split at h
      · rename_i hcb
        subst hcb
        have hQ : Q st₃ st' :=
          strFoldLoop_quote O C Q hCC hCt hCw hQq hCQ onString onEscape hesc
            _ _ _ _ _ h
        exact hCQ _ _ _ hC2 (hCQ _ _ _ (hCt _ _ _ htk) hQ)
      · split at h
        · rename_i hne hcb
          subst hcb
          cases h
          exact hCQ _ _ _ hC2 (hQq _ _ htk)
        · cases h

/-- `str_foreach` on the slice lexer: success consumes through the
closing quote. -/
theorem strForeach_slice_quote (st : SliceLexer) (bs : List Nat) (st' : SliceLexer)
    (h : strForeach sliceOps st = .ok (bs, st')) :
    ∃ pre, st.rest = pre ++ 34 :: st'.rest := by
  unfold strForeach at h
  dsimp only at h
  rcases hw : sliceOps.foreachUntil StrState.process {} st with ⟨bs₀, s₂, st₂⟩
  rw [hw] at h
  dsimp only at h
  cases hfin : StrState.finish sliceOps s₂ st₂ with
  | error e => rw [hfin] at h; cases h
  | ok stf =>
    rw [hfin] at h
    cases h
    have hq : st₂.rest = 34 :: st'.rest :=
      takeNext_slice_some st₂ 34 st' (finish_takeNext sliceOps s₂ st₂ st' hfin)
    have hsplit : st.rest = bs ++ st₂.rest := by
      have hr := scanUntil_slice_rest StrState.process {} st
      rw [show SliceLexer.scanUntil StrState.process {} st = (bs, s₂, st₂) from hw] at hr
      exact hr
    exact ⟨bs, by rw [hsplit, hq]⟩

/-- `str_ignore` on the slice lexer: success consumes through the
closing quote. -/
theorem strIgnore_slice_quote (st st' : SliceLexer)
    (h : strIgnore sliceOps st = .ok st') : ∃ pre, st.rest = pre ++ 34 :: st'.rest := by
  unfold strIgnore at h
  cases hf : strForeach sliceOps st with
  | error e => rw [hf] at h; cases h
  | ok p =>
    obtain ⟨bs, stf⟩ := p
    rw [hf] at h
    cases h
    exact strForeach_slice_quote st bs _ hf

/-- `str_bytes` on the slice lexer: success consumes through the closing
quote. -/
theorem strBytes_slice_quote (st : SliceLexer) (bs : List Nat) (st' : SliceLexer)
    (h : strBytes sliceOps st = .ok (bs, st')) :
    ∃ pre, st.rest = pre ++ 34 :: st'.rest := by
  unfold strBytes at h
  dsimp only at h
  rcases hw : sliceOps.writeUntil StrState.process {} st with ⟨bs₀, s₂, st₂⟩
  rw [hw] at h
  dsimp only at h
  cases hfin : StrState.finish sliceOps s₂ st₂ with
  | error e => rw [hfin] at h; cases h
  | ok stf =>
    rw [hfin] at h
    cases h
    have hq : st₂.rest = 34 :: st'.rest :=
      takeNext_slice_some st₂ 34 st' (finish_takeNext sliceOps s₂ st₂ st' hfin)
    have hsplit : st.rest = bs ++ st₂.rest := by
      have hr := scanUntil_slice_rest StrState.process {} st
      rw [show SliceLexer.scanUntil StrState.process {} st = (bs, s₂, st₂) from hw] at hr
      exact hr
    exact ⟨bs, by rw [hsplit, hq]⟩

/-- `str_fold` on the slice lexer: if the escape callback only consumes
a prefix of the slice, success consumes through the closing quote. -/
theorem strFold_slice_quote {T : Type}
    (onString : List Nat → T → Except StrError T)
    (onEscape : T → SliceLexer → Except StrError (T × SliceLexer))
    (hesc : ∀ out st out' st', onEscape out st = .ok (out', st') →
      ∃ p, st.rest = p ++ st'.rest)
    (out : T) (st : SliceLexer) (out' : T) (st' : SliceLexer)
    (h : strFold sliceOps onString onEscape out st = .ok (out', st')) :
    ∃ pre, st.rest = pre ++ 34 :: st'.rest :=
  strFold_quote sliceOps
    (fun a b => ∃ p, a.rest = p ++ b.rest)
    (fun a b => ∃ p, a.rest = p ++ 34 :: b.rest)
    (fun a b c ⟨p, hp⟩ ⟨q, hq⟩ => ⟨p ++ q, by rw [hp, hq, List.append_assoc]⟩)
    (fun a c' b htk => ⟨[c'], takeNext_slice_some a c' b htk⟩)
    (fun f a => ⟨(sliceOps.writeUntil f () a).1, scanUntil_slice_rest f () a⟩)
    (fun a b htk => ⟨[], takeNext_slice_some a 34 b htk⟩)
    (fun a b c ⟨p, hp⟩ ⟨q, hq⟩ => ⟨p ++ q, by rw [hp, hq, List.append_assoc]⟩)
    onString onEscape hesc out st out' st' h

/-- `str_string` on the slice lexer: success consumes through the
closing quote. -/
theorem strString_slice_quote (st : SliceLexer) (cs : List Nat) (st' : SliceLexer)
    (h : strString sliceOps st = .ok (cs, st')) :
    ∃ pre, st.rest = pre ++ 34 :: st'.rest := by
  unfold strString at h
  refine strFold_slice_quote _ _ ?_ _ _ _ _ h
  intro out s out' s' hoe
  cases he : escapeNext sliceOps s with
  | error e => rw [he] at hoe; cases hoe
  | ok p =>
    obtain ⟨c, s₂⟩ := p
    rw [he] at hoe
    cases hoe
    exact escapeNext_slice_consumes s c _ he

/-- The stream `write_until` consumes a (putback-bounded) prefix of the
stream. -/
theorem scanUntil_iter_consumes {ε τ : Type} (f : τ → Nat → τ × Bool)
    (t : τ) (st : IterLexer ε) :
    ∃ p : List Nat, IterLexer.stream st =
      p.map Except.ok ++ IterLexer.stream (IterLexer.scanUntil f t st).2.2 := by
  rcases hl : st.last with _ | c
  · exact ⟨[], by simp [IterLexer.scanUntil, hl]⟩
  · rcases hf : f t c with ⟨t', b⟩
    cases b
    · exact ⟨[c], by simp [IterLexer.scanUntil, IterLexer.stream, hl, hf]⟩
    · exact ⟨[], by simp [IterLexer.scanUntil, hl, hf]⟩

/-- `State::finish` on the stream lexer: success takes the quote from
the putback. -/
theorem finish_iter_quote {ε : Type} (s : StrState) (st st' : IterLexer ε)
    (h : StrState.finish (iterOps ε) s st = .ok st') :
    st.last = some 34 ∧ st' = { st with last := none } := by
  have htk' : IterLexer.takeNext st = (some 34, st') :=
    finish_takeNext (iterOps ε) s st st' h
  unfold IterLexer.takeNext at htk'
  injection htk' with h1 h2
  exact ⟨h1, h2.symm⟩

/-- When the stream scan core hits an upstream error, the putback is set
to byte `0`. -/
theorem foreachCore_err {ε τ : Type} (stop : τ → Nat → τ × Bool) :
    ∀ (l : List (Except ε Nat)) (t : τ),
      (IterLexer.foreachCore stop t l).2.2.2.2.isSome = true →
      (IterLexer.foreachCore stop t l).2.2.2.1 = some 0 := by
  intro l
  induction l with
  | nil =>
    intro t h
    simp [IterLexer.foreachCore] at h
  | cons hd tl ih =>
    intro t h
    match hd with
    | .error e =>
      simp [IterLexer.foreachCore]
    | .ok c =>
      unfold IterLexer.foreachCore at h ⊢
      rcases hs : stop t c with ⟨t₁, b⟩
      rw [hs] at h
      cases b
      · dsimp only at h ⊢
        exact ih t₁ h
      · dsimp only at h ⊢
        simp at h

/-- When the stream scan core stops at a byte without an upstream error,
the consumed upstream items are the collected bytes followed by the stop
byte. -/
theorem foreachCore_ok {ε τ : Type} (stop : τ → Nat → τ × Bool) :
    ∀ (l : List (Except ε Nat)) (t : τ) (b : Nat),
      (IterLexer.foreachCore stop t l).2.2.2.1 = some b →
      (IterLexer.foreachCore stop t l).2.2.2.2 = none →
      l = (IterLexer.foreachCore stop t l).1.map Except.ok ++
        .ok b :: (IterLexer.foreachCore stop t l).2.2.1 := by
  intro l
  induction l with
  | nil =>
    intro t b h1 h2
    simp [IterLexer.foreachCore] at h1
  | cons hd tl ih =>
    intro t b h1 h2
    match hd with
    | .error e =>
      simp [IterLexer.foreachCore] at h2
    | .ok c =>
      unfold IterLexer.foreachCore at h1 h2 ⊢
      rcases hs : stop t c with ⟨t₁, bb⟩
      rw [hs] at h1 h2
      cases bb
      · dsimp only at h1 h2 ⊢
        simp only [List.map_cons, List.cons_append]
        rw [← ih t₁ b h1 h2]
      · dsimp only at h1 h2 ⊢
        injection h1 with h1
        subst h1
        rfl

/-- `str_foreach` on the stream lexer: success consumes through the
closing quote. -/
theorem strForeach_iter_quote {ε : Type} (st : IterLexer ε) (bs : List Nat)
    (st' : IterLexer ε) (h : strForeach (iterOps ε) st = .ok (bs, st')) :
    ∃ p : List Nat, IterLexer.stream st =
      p.map Except.ok ++ .ok 34 :: IterLexer.stream st' := by
  unfold strForeach at h
  dsimp only at h
  rcases hw : (iterOps ε).foreachUntil StrState.process {} st with ⟨bs0, s₂, st₂⟩
  rw [hw] at h
  dsimp only at h
  cases hfin : StrState.finish (iterOps ε) s₂ st₂ with
  | error e => rw [hfin] at h; cases h
  | ok stf =>
    rw [hfin] at h
    cases h
    obtain ⟨hl34, hst'⟩ := finish_iter_quote s₂ st₂ st' hfin
    have hw' : IterLexer.foreachUntil StrState.process {} st = (bs, s₂, st₂) := hw
    unfold IterLexer.foreachUntil at hw'
    rcases hc : IterLexer.foreachCore StrState.process ({} : StrState) st.bytes
      with ⟨cbs, ct, cbytes, clast, cerr⟩
    rw [hc] at hw'
    cases cerr with
    | some e =>
      dsimp only at hw'
      have hst₂ : (⟨cbytes, clast, some e⟩ : IterLexer ε) = st₂ :=
        congrArg (fun x => x.2.2) hw'
      have hcl : clast = some 34 := by
        rw [← hst₂] at hl34
        exact hl34
      have h0 := foreachCore_err StrState.process st.bytes ({} : StrState)
      rw [hc] at h0
      simp at h0
      rw [h0] at hcl
      simp at hcl
    | none =>
      dsimp only at hw'
      have hbs : cbs = bs := congrArg (fun x => x.1) hw'
      have hst₂ : (⟨cbytes, clast, st.error⟩ : IterLexer ε) = st₂ :=
        congrArg (fun x => x.2.2) hw'
      have hcl : clast = some 34 := by
        rw [← hst₂] at hl34
        exact hl34
      have h1 : (IterLexer.foreachCore StrState.process ({} : StrState) st.bytes).2.2.2.1 =
          some 34 := by
        rw [hc]
        exact hcl
      have h2 : (IterLexer.foreachCore StrState.process ({} : StrState) st.bytes).2.2.2.2 =
          none := by
        rw [hc]
      have hsplit := foreachCore_ok StrState.process st.bytes ({} : StrState) 34 h1 h2
      rw [hc] at hsplit
      dsimp only at hsplit
      have hstream' : IterLexer.stream st' = cbytes := by
        rw [hst', ← hst₂]
        rfl
      rcases hsl : st.last with _ | c0
      · refine ⟨cbs, ?_⟩
        rw [hstream']
        simpa [IterLexer.stream, hsl] using hsplit
      · refine ⟨c0 :: cbs, ?_⟩
        rw [hstream']
        simpa [IterLexer.stream, hsl] using hsplit

/-- `str_ignore` on the stream lexer: success consumes through the
closing quote. -/
theorem strIgnore_iter_quote {ε : Type} (st st' : IterLexer ε)
    (h : strIgnore (iterOps ε) st = .ok st') :
    ∃ p : List Nat, IterLexer.stream st =
      p.map Except.ok ++ .ok 34 :: IterLexer.stream st' := by
  unfold strIgnore at h
  cases hf : strForeach (iterOps ε) st with
  | error e => rw [hf] at h; cases h
  | ok p =>
    obtain ⟨bs, stf⟩ := p
    rw [hf] at h
    cases h
    exact strForeach_iter_quote st bs _ hf

/-- `str_bytes` on the stream lexer: success consumes through the
closing quote. -/
theorem strBytes_iter_quote {ε : Type} (st : IterLexer ε) (bs : List Nat)
    (st' : IterLexer ε) (h : strBytes (iterOps ε) st = .ok (bs, st')) :
    ∃ p : List Nat, IterLexer.stream st =
      p.map Except.ok ++ .ok 34 :: IterLexer.stream st' := by
  unfold strBytes at h
  dsimp only at h
  rcases hw : (iterOps ε).writeUntil StrState.process {} st with ⟨bs0, s₂, st₂⟩
  rw [hw] at h
  dsimp only at h
  cases hfin : StrState.finish (iterOps ε) s₂ st₂ with
  | error e => rw [hfin] at h; cases h
  | ok stf =>
    rw [hfin] at h
    cases h
    obtain ⟨hl34, hst'⟩ := finish_iter_quote s₂ st₂ st' hfin
    have hw' : IterLexer.scanUntil StrState.process {} st = (bs, s₂, st₂) := hw
    unfold IterLexer.scanUntil at hw'
    rcases hsl : st.last with _ | c
    · rw [hsl] at hw'
      dsimp only at hw'
      cases hw'
      rw [hsl] at hl34
      cases hl34
    · rw [hsl] at hw'
      dsimp only at hw'
      rcases hs : StrState.process ({} : StrState) c with ⟨s', b⟩
      rw [hs] at hw'
      cases b
      · dsimp only at hw'
        cases hw'
        simp at hl34
      · dsimp only at hw'
        cases hw'
        rw [hsl] at hl34
        injection hl34 with hc
        subst hc
        subst hst'
        exact ⟨[], by simp [IterLexer.stream, hsl]⟩

/-- `str_fold` on the stream lexer: if the escape callback only consumes
a prefix of the stream, success consumes through the closing quote. -/
theorem strFold_iter_quote {ε : Type} {T : Type}
    (onString : List Nat → T → Except StrError T)
    (onEscape : T → IterLexer ε → Except StrError (T × IterLexer ε))
    (hesc : ∀ out st out' st', onEscape out st = .ok (out', st') →
      ∃ p : List Nat, IterLexer.stream st = p.map Except.ok ++ IterLexer.stream st')
    (out : T) (st : IterLexer ε) (out' : T) (st' : IterLexer ε)
    (h : strFold (iterOps ε) onString onEscape out st = .ok (out', st')) :
    ∃ p : List Nat, IterLexer.stream st =
      p.map Except.ok ++ .ok 34 :: IterLexer.stream st' :=
  strFold_quote (iterOps ε)
    (fun a b => ∃ p : List Nat,
      IterLexer.stream a = p.map Except.ok ++ IterLexer.stream b)
    (fun a b => ∃ p : List Nat,
      IterLexer.stream a = p.map Except.ok ++ .ok 34 :: IterLexer.stream b)
    (fun a b c ⟨p, hp⟩ ⟨q, hq⟩ =>
      ⟨p ++ q, by rw [hp, hq, List.map_append, List.append_assoc]⟩)
    (fun a c' b htk => ⟨[c'], takeNext_iter_some a c' b htk⟩)
    (fun f a => scanUntil_iter_consumes f () a)
    (fun a b htk => ⟨[], takeNext_iter_some a 34 b htk⟩)
    (fun a b c ⟨p, hp⟩ ⟨q, hq⟩ =>
      ⟨p ++ q, by rw [hp, hq, List.map_append, List.append_assoc]⟩)
    onString onEscape hesc out st out' st' h

/-- `str_string` on the stream lexer: success consumes through the
closing quote. -/
theorem strString_iter_quote {ε : Type} (st : IterLexer ε) (cs : List Nat)
    (st' : IterLexer ε) (h : strString (iterOps ε) st = .ok (cs, st')) :
    ∃ p : List Nat, IterLexer.stream st =
      p.map Except.ok ++ .ok 34 :: IterLexer.stream st' := by
  unfold strString at h
  refine strFold_iter_quote _ _ ?_ _ _ _ _ h
  intro out s out' s' hoe
  cases he : escapeNext (iterOps ε) s with
  | error e => rw [he] at hoe; cases hoe
  | ok p =>
    obtain ⟨c, s₂⟩ := p
    rw [he] at hoe
    cases hoe
    exact escapeNext_iter_consumes s c _ he

/-- C6.  For every input and every string-lexing tier — ignore
(`str_foreach`/`str_ignore`), raw bytes (`str_bytes`), decoded
(`str_fold`, and `str_string` built on it) — whenever the tier returns
success, the closing double quote has been consumed from the input: on
the buffer lexer the consumed prefix of the slice ends with byte `34`,
and on the stream lexer the consumed prefix of the item stream
(putback followed by upstream items) ends with `Ok 34`.  The `str_fold`
clauses hold for every escape callback that only consumes input, which
the concrete `str_string` callbacks do. -/
theorem c6_closing_quote_consumed :
    ((∀ (st : SliceLexer) (bs : List Nat) (st' : SliceLexer),
        strForeach sliceOps st = .ok (bs, st') →
          ∃ pre, st.rest = pre ++ 34 :: st'.rest) ∧
     (∀ (st st' : SliceLexer),
        strIgnore sliceOps st = .ok st' →
          ∃ pre, st.rest = pre ++ 34 :: st'.rest) ∧
     (∀ (st : SliceLexer) (bs : List Nat) (st' : SliceLexer),
        strBytes sliceOps st = .ok (bs, st') →
          ∃ pre, st.rest = pre ++ 34 :: st'.rest) ∧
     (∀ (T : Type) (onString : List Nat → T → Except StrError T)
        (onEscape : T → SliceLexer → Except StrError (T × SliceLexer)),
        (∀ out st out' st', onEscape out st = .ok (out', st') →
          ∃ p, st.rest = p ++ st'.rest) →
        ∀ out st out' st', strFold sliceOps onString onEscape out st = .ok (out', st') →
          ∃ pre, st.rest = pre ++ 34 :: st'.rest) ∧
     (∀ (st : SliceLexer) (cs : List Nat) (st' : SliceLexer),
        strString sliceOps st = .ok (cs, st') →
          ∃ pre, st.rest = pre ++ 34 :: st'.rest)) ∧
    ((∀ (ε : Type) (st : IterLexer ε) (bs : List Nat) (st' : IterLexer ε),
        strForeach (iterOps ε) st = .ok (bs, st') →
          ∃ p : List Nat, IterLexer.stream st =
            p.map Except.ok ++ .ok 34 :: IterLexer.stream st') ∧
     (∀ (ε : Type) (st st' : IterLexer ε),
        strIgnore (iterOps ε) st = .ok st' →
          ∃ p : List Nat, IterLexer.stream st =
            p.map Except.ok ++ .ok 34 :: IterLexer.stream st') ∧
     (∀ (ε : Type) (st : IterLexer ε) (bs : List Nat) (st' : IterLexer ε),
        strBytes (iterOps ε) st = .ok (bs, st') →
          ∃ p : List Nat, IterLexer.stream st =
            p.map Except.ok ++ .ok 34 :: IterLexer.stream st') ∧
     (∀ (ε : Type) (T : Type) (onString : List Nat → T → Except StrError T)
        (onEscape : T → IterLexer ε → Except StrError (T × IterLexer ε)),
        (∀ out st out' st', onEscape out st = .ok (out', st') →
          ∃ p : List Nat, IterLexer.stream st =
            p.map Except.ok ++ IterLexer.stream st') →
        ∀ out st out' st', strFold (iterOps ε) onString onEscape out st = .ok (out', st') →
          ∃ p : List Nat, IterLexer.stream st =
            p.map Except.ok ++ .ok 34 :: IterLexer.stream st') ∧
     (∀ (ε : Type) (st : IterLexer ε) (cs : List Nat) (st' : IterLexer ε),
        strString (iterOps ε) st = .ok (cs, st') →
          ∃ p : List Nat, IterLexer.stream st =
            p.map Except.ok ++ .ok 34 :: IterLexer.stream st')) :=
  ⟨⟨strForeach_slice_quote,
    strIgnore_slice_quote,
    strBytes_slice_quote,
    fun T onString onEscape hesc => strFold_slice_quote onString onEscape hesc,
    strString_slice_quote⟩,
   fun ε => strForeach_iter_quote,
   fun ε => strIgnore_iter_quote,
   fun ε => strBytes_iter_quote,
   fun ε T onString onEscape hesc => strFold_iter_quote onString onEscape hesc,
   fun ε => strString_iter_quote⟩

/-- C6 witness: the decoded tier on the slice input `ab"` and the ignore
tier on the stream input `a"` succeed, and in both cases the theorem
yields a consumed prefix ending with the closing quote. -/
theorem c6_witness :
    (strString sliceOps ⟨[], [97, 98, 34]⟩ = .ok ([97, 98], ⟨[34, 98, 97], []⟩) ∧
      ∃ pre, ([97, 98, 34] : List Nat) =
        pre ++ 34 :: (⟨[34, 98, 97], []⟩ : SliceLexer).rest) ∧
    (strForeach (iterOps Unit) ⟨[.ok 97, .ok 34], none, none⟩ =
        .ok ([97], ⟨[], none, none⟩) ∧
      ∃ p : List Nat,
        IterLexer.stream (⟨[.ok 97, .ok 34], none, none⟩ : IterLexer Unit) =
          p.map Except.ok ++ .ok 34 ::
            IterLexer.stream (⟨[], none, none⟩ : IterLexer Unit)) :=
  ⟨⟨rfl, c6_closing_quote_consumed.1.2.2.2.2 ⟨[], [97, 98, 34]⟩ [97, 98]
      ⟨[34, 98, 97], []⟩ rfl⟩,
   ⟨rfl, c6_closing_quote_consumed.2.1 Unit ⟨[.ok 97, .ok 34], none, none⟩ [97]
      ⟨[], none, none⟩ rfl⟩⟩

theorem foldr_max_append (l₁ l₂ : List Nat) :
    (l₁ ++ l₂).foldr max 0 = max (l₁.foldr max 0) (l₂.foldr max 0) := by
  induction l₁ with
  | nil => simp
  | cons a l ihl => simp [ihl, Nat.max_assoc]

theorem nestingList_foldr (l : List Value) :
    (l.map nesting).foldr max 0 = nestingList l := by
  induction l with
  | nil => rfl
  | cons v vs ihl => simp [nestingList, ihl]

theorem nestingObj_foldr (l : List (List Nat × Value)) :
    (l.map fun kv => nesting kv.2).foldr max 0 = nestingObj l := by
  induction l with
  | nil => rfl
  | cons kv kvs ihl =>
    obtain ⟨k, v⟩ := kv
    simp [nestingObj, ihl]

/-- Depth-comparison for the `seq` loop: if each item callback of the
unbounded run either is reproduced by the bounded callback (when the
item's measure fits the remaining budget `dm`) or fails with `Depth`
(when it does not), then the whole loop either reproduces the run or
fails with `Depth`, decided by the maximum measure of the parsed
items. -/
theorem seqLoop_depth_rel {β : Type} (O : LexOps σ) (e : Token)
    (tf : σ → Option Token × σ) (m : β → Nat) (dm : Nat)
    (f g : List β → Token → σ → Except Error (List β × σ))
    (hrel : ∀ acc t st r st₂, f acc t st = .ok (r, st₂) →
      ∃ delta, r = acc ++ delta ∧
        ((delta.map m).foldr max 0 ≤ dm → g acc t st = .ok (r, st₂)) ∧
        (dm < (delta.map m).foldr max 0 → g acc t st = .error .depth)) :
    ∀ (sfuel : Nat) (acc : List β) (t : Token) (st : σ) (r : List β) (st' : σ),
      seqLoop O e tf f sfuel acc t st = .ok (r, st') →
      ∃ delta, r = acc ++ delta ∧
        ((delta.map m).foldr max 0 ≤ dm →
          seqLoop O e tf g sfuel acc t st = .ok (r, st')) ∧
        (dm < (delta.map m).foldr max 0 →
          seqLoop O e tf g sfuel acc t st = .error .depth) := by
  intro sfuel
  induction sfuel with
  | zero =>
    intro acc t st r st' h
    cases h
  | succ sfuel ihs =>
    intro acc t st r st' h
    unfold seqLoop at h
    cases hf : f acc t st with
    | error err => rw [hf] at h; cases h
    | ok p1 =>
      obtain ⟨acc₁, st₂⟩ := p1
      rw [hf] at h
      dsimp only at h
      obtain ⟨d₀, hd₀, hgok, hgerr⟩ := hrel acc t st acc₁ st₂ hf
      rcases htf : tf st₂ with ⟨o, st₃⟩
      rw [htf] at h
      cases o with
      | none => dsimp only at h; cases h
      | some t' =>
        dsimp only at h
        split at h
        · rename_i hte
          cases h
          refine ⟨d₀, hd₀, ?_, ?_⟩
          · intro hle
            conv_lhs => unfold seqLoop
            rw [hgok hle]
            dsimp only
            rw [htf]
            dsimp only
            rw [if_pos hte]
          · intro hlt
            conv_lhs => unfold seqLoop
            rw [hgerr hlt]
        · split at h
          · rename_i hne hc
            rcases htf2 : tf st₃ with ⟨o2, st₄⟩
            rw [htf2] at h
            cases o2 with
            | none => dsimp only at h; cases h
            | some t'' =>
              dsimp only at h
              obtain ⟨d₁, hd₁, hrok, hrerr⟩ := ihs acc₁ t'' st₄ r st' h
              have hM : ((d₀ ++ d₁).map m).foldr max 0 =
                  max ((d₀.map m).foldr max 0) ((d₁.map m).foldr max 0) := by
                rw [List.map_append, foldr_max_append]
              refine ⟨d₀ ++ d₁, by rw [hd₁, hd₀, List.append_assoc], ?_, ?_⟩
              · intro hle
                rw [hM] at hle
                conv_lhs => unfold seqLoop
                rw [hgok (by omega)]
                dsimp only
                rw [htf]
                dsimp only
                rw [if_neg hne, if_pos hc, htf2]
                dsimp only
                exact hrok (by omega)
              · intro hlt
                rw [hM] at hlt
                by_cases h₀ : (d₀.map m).foldr max 0 ≤ dm
                · conv_lhs => unfold seqLoop
                  rw [hgok h₀]
                  dsimp only
                  rw [htf]
                  dsimp only
                  rw [if_neg hne, if_pos hc, htf2]
                  dsimp only
                  exact hrerr (by omega)
                · conv_lhs => unfold seqLoop
                  rw [hgerr (by omega)]
          · cases h

/-- Depth-comparison for `seq`: as for the loop, decided by the maximum
measure of the parsed items. -/
theorem seq_depth_rel {β : Type} (O : LexOps σ) (sfuel : Nat) (e : Token)
    (tf : σ → Option Token × σ) (m : β → Nat) (dm : Nat)
    (f g : List β → Token → σ → Except Error (List β × σ))
    (hrel : ∀ acc t st r st₂, f acc t st = .ok (r, st₂) →
      ∃ delta, r = acc ++ delta ∧
        ((delta.map m).foldr max 0 ≤ dm → g acc t st = .ok (r, st₂)) ∧
        (dm < (delta.map m).foldr max 0 → g acc t st = .error .depth))
    (acc : List β) (st : σ) (r : List β) (st' : σ)
    (h : seq O sfuel e tf f acc st = .ok (r, st')) :
    ∃ delta, r = acc ++ delta ∧
      ((delta.map m).foldr max 0 ≤ dm →
        seq O sfuel e tf g acc st = .ok (r, st')) ∧
      (dm < (delta.map m).foldr max 0 →
        seq O sfuel e tf g acc st = .error .depth) := by
  unfold seq at h ⊢
  rcases htf : tf st with ⟨o, st₁⟩
  rw [htf] at h
  cases o with
  | none => dsimp only at h; cases h
  | some t =>
    dsimp only at h ⊢
    split at h
    · rename_i hte
      cases h
      refine ⟨[], by simp, ?_, ?_⟩
      · intro _
        rw [if_pos hte]
      · intro hlt
        simp at hlt
    · rename_i hne
      obtain ⟨delta, hd, hok, herr⟩ :=
        seqLoop_depth_rel O e tf m dm f g hrel sfuel acc t st₁ r st' h
      refine ⟨delta, hd, ?_, ?_⟩
      · intro hle
        rw [if_neg hne]
        exact hok hle
      · intro hlt
        rw [if_neg hne]
        exact herr hlt

/-- `parse_depth` against `from_token`: on any input where the
unbounded parser produces a value `v`, the bounded parser with budget
`d` reproduces the result when `nesting v ≤ d` and fails with `Depth`
when `d < nesting v`. -/
theorem parseDepthF_spec (A : LexAllocOps σ) :
    ∀ (fuel : Nat) (t : Token) (st : σ) (v : Value) (st' : σ),
      fromTokenF A fuel t st = .ok (v, st') →
      ∀ d : Nat,
        (nesting v ≤ d → parseDepthF A fuel d t st = .ok (v, st')) ∧
        (d < nesting v → parseDepthF A fuel d t st = .error .depth) := by
  intro fuel
  induction fuel with
  | zero =>
    intro t st v st' h
    cases h
  | succ fuel ih =>
    intro t st v st' h d
    have h0 := h
    cases t with
    | letter =>
      unfold fromTokenF at h
      dsimp only at h
      have hn : nesting v = 1 := by
        rcases hnb : nullOrBool A.ops st with ⟨o, st₁⟩
        rw [hnb] at h
        match o with
        | some none =>
          dsimp only at h
          cases h
          rfl
        | some (some b) =>
          dsimp only at h
          cases h
          cases b <;> rfl
        | none =>
          dsimp only at h
          cases h
      refine ⟨fun hle => ?_, fun hlt => ?_⟩
      · unfold parseDepthF
        rw [if_neg (by omega)]
        dsimp only
        exact h0
      · have hd : d = 0 := by omega
        subst hd
        unfold parseDepthF
        rw [if_pos rfl]
    | digit =>
      unfold fromTokenF at h
      dsimp only at h
      have hn : nesting v = 1 := by
        cases hns : A.numString [] st with
        | error e => rw [hns] at h; cases h
        | ok p =>
          obtain ⟨⟨txt, parts⟩, st₁⟩ := p
          rw [hns] at h
          dsimp only at h
          cases h
          rfl
      refine ⟨fun hle => ?_, fun hlt => ?_⟩
      · unfold parseDepthF
        rw [if_neg (by omega)]
        dsimp only
        exact h0
      · have hd : d = 0 := by omega
        subst hd
        unfold parseDepthF
        rw [if_pos rfl]
    | minus =>
      unfold fromTokenF at h
      dsimp only at h
      have hn : nesting v = 1 := by
        cases hns : A.numString [45] st with
        | error e => rw [hns] at h; cases h
        | ok p =>
          obtain ⟨⟨txt, parts⟩, st₁⟩ := p
          rw [hns] at h
          dsimp only at h
          cases h
          rfl
      refine ⟨fun hle => ?_, fun hlt => ?_⟩
      · unfold parseDepthF
        rw [if_neg (by omega)]
        dsimp only
        exact h0
      · have hd : d = 0 := by omega
        subst hd
        unfold parseDepthF
        rw [if_pos rfl]
    | quote =>
      unfold fromTokenF at h
      dsimp only at h
      have hn : nesting v = 1 := by
        cases hns : A.strString st with
        | error e => rw [hns] at h; cases h
        | ok p =>
          obtain ⟨s, st₁⟩ := p
          rw [hns] at h
          dsimp only at h
          cases h
          rfl
      refine ⟨fun hle => ?_, fun hlt => ?_⟩
      · unfold parseDepthF
        rw [if_neg (by omega)]
        dsimp only
        exact h0
      · have hd : d = 0 := by omega
        subst hd
        unfold parseDepthF
        rw [if_pos rfl]
    | comma =>
      unfold fromTokenF at h
      dsimp only at h
      cases h
    | colon =>
      unfold fromTokenF at h
      dsimp only at h
      cases h
    | rsquare =>
      unfold fromTokenF at h
      dsimp only at h
      cases h
    | rcurly =>
      unfold fromTokenF at h
      dsimp only at h
      cases h
    | error =>
      unfold fromTokenF at h
      dsimp only at h
      cases h
    | lsquare =>
      unfold fromTokenF at h
      dsimp only at h
      split at h
      · cases h
      · rename_i arr st₂ hseq
        cases h
        have hnest : nesting (Value.array arr) = 1 + nestingList arr := rfl
        by_cases hd0 : d = 0
        · subst hd0
          refine ⟨fun hle => absurd hle (by omega), fun _ => ?_⟩
          unfold parseDepthF
          rw [if_pos rfl]
        · have hrel : ∀ (acc : List Value) (t₁ : Token) (st₁ : σ) (r₁ : List Value)
              (st₃ : σ),
              (fun (arr : List Value) (t : Token) (st : σ) =>
                match fromTokenF A fuel t st with
                | Except.error e => Except.error e
                | Except.ok (v, st) => Except.ok (arr ++ [v], st)) acc t₁ st₁ =
                Except.ok (r₁, st₃) →
              ∃ delta, r₁ = acc ++ delta ∧
                ((delta.map nesting).foldr max 0 ≤ d - 1 →
                  (fun (arr : List Value) (t : Token) (st : σ) =>
                    match parseDepthF A fuel (d - 1) t st with
                    | Except.error e => Except.error e
                    | Except.ok (v, st) => Except.ok (arr ++ [v], st)) acc t₁ st₁ =
                    Except.ok (r₁, st₃)) ∧
                (d - 1 < (delta.map nesting).foldr max 0 →
                  (fun (arr : List Value) (t : Token) (st : σ) =>
                    match parseDepthF A fuel (d - 1) t st with
                    | Except.error e => Except.error e
                    | Except.ok (v, st) => Except.ok (arr ++ [v], st)) acc t₁ st₁ =
                    Except.error Error.depth) := by
            intro acc t₁ st₁ r₁ st₃ hf
            dsimp only at hf ⊢
            cases hft : fromTokenF A fuel t₁ st₁ with
            | error e => rw [hft] at hf; cases hf
            | ok pv =>
              obtain ⟨v₁, stv⟩ := pv
              rw [hft] at hf
              dsimp only at hf
              cases hf
              obtain ⟨hok, herr⟩ := ih t₁ st₁ v₁ st₃ hft (d - 1)
              refine ⟨[v₁], rfl, ?_, ?_⟩
              · intro hle
                rw [hok (by simpa using hle)]
              · intro hlt
                rw [herr (by simpa using hlt)]
          obtain ⟨delta, hdelta, hok, herr⟩ := seq_depth_rel A.ops (A.ops.size st + 1)
            .rsquare (wsToken A.ops) nesting (d - 1) _ _ hrel [] st arr st' hseq
          simp only [List.nil_append] at hdelta
          subst hdelta
          refine ⟨fun hle => ?_, fun hlt => ?_⟩
          · have hm : (arr.map nesting).foldr max 0 ≤ d - 1 := by
              rw [nestingList_foldr]
              omega
            unfold parseDepthF
            rw [if_neg hd0]
            dsimp only
            rw [hok hm]
          · have hm : d - 1 < (arr.map nesting).foldr max 0 := by
              rw [nestingList_foldr]
              omega
            unfold parseDepthF
            rw [if_neg hd0]
            dsimp only
            rw [herr hm]
    | lcurly =>
      unfold fromTokenF at h
      dsimp only at h
      split at h
      · cases h
      · rename_i obj st₂ hseq
        cases h
        have hnest : nesting (Value.object obj) = 1 + nestingObj obj := rfl
        by_cases hd0 : d = 0
        · subst hd0
          refine ⟨fun hle => absurd hle (by omega), fun _ => ?_⟩
          unfold parseDepthF
          rw [if_pos rfl]
        · have hrel : ∀ (acc : List (List Nat × Value)) (t₁ : Token) (st₁ : σ)
              (r₁ : List (List Nat × Value)) (st₃ : σ),
              (fun (obj : List (List Nat × Value)) (t : Token) (st : σ) =>
                match
                  strColon A.ops t (wsToken A.ops)
                    (fun st =>
                      match A.strString st with
                      | Except.error e => Except.error (Error.str e)
                      | Except.ok (k, st) => Except.ok (k, st))
                    st
                with
                | Except.error e => Except.error e
                | Except.ok (key, st) =>
                  match wsToken A.ops st with
                  | (none, _) => Except.error (Error.token Expect.value)
                  | (some t', st) =>
                    match fromTokenF A fuel t' st with
                    | Except.error e => Except.error e
                    | Except.ok (v, st) => Except.ok (obj ++ [(key, v)], st)) acc t₁ st₁ =
                Except.ok (r₁, st₃) →
              ∃ delta, r₁ = acc ++ delta ∧
                ((delta.map fun kv => nesting kv.2).foldr max 0 ≤ d - 1 →
                  (fun (obj : List (List Nat × Value)) (t : Token) (st : σ) =>
                    match
                      strColon A.ops t (wsToken A.ops)
                        (fun st =>
                          match A.strString st with
                          | Except.error e => Except.error (Error.str e)
                          | Except.ok (k, st) => Except.ok (k, st))
                        st
                    with
                    | Except.error e => Except.error e
                    | Except.ok (key, st) =>
                      match wsToken A.ops st with
                      | (none, _) => Except.error (Error.token Expect.value)
                      | (some t', st) =>
                        match parseDepthF A fuel (d - 1) t' st with
                        | Except.error e => Except.error e
                        | Except.ok (v, st) =>
                          Except.ok (obj ++ [(key, v)], st)) acc t₁ st₁ =
                    Except.ok (r₁, st₃)) ∧
                (d - 1 < (delta.map fun kv => nesting kv.2).foldr max 0 →
                  (fun (obj : List (List Nat × Value)) (t : Token) (st : σ) =>
                    match
                      strColon A.ops t (wsToken A.ops)
                        (fun st =>
                          match A.strString st with
                          | Except.error e => Except.error (Error.str e)
                          | Except.ok (k, st) => Except.ok (k, st))
                        st
                    with
                    | Except.error e => Except.error e
                    | Except.ok (key, st) =>
                      match wsToken A.ops st with
                      | (none, _) => Except.error (Error.token Expect.value)
                      | (some t', st) =>
                        match parseDepthF A fuel (d - 1) t' st with
                        | Except.error e => Except.error e
                        | Except.ok (v, st) =>
                          Except.ok (obj ++ [(key, v)], st)) acc t₁ st₁ =
                    Except.error Error.depth) := by
            intro acc t₁ st₁ r₁ st₃ hf
            dsimp only at hf ⊢
            cases hsc : strColon A.ops t₁ (wsToken A.ops)
                (fun st =>
                  match A.strString st with
                  | .error e => .error (.str e)
                  | .ok (k, st) => .ok (k, st)) st₁ with
            | error e => rw [hsc] at hf; cases hf
            | ok pk =>
              obtain ⟨key, stk⟩ := pk
              rw [hsc] at hf
              dsimp only at hf
              rcases hwt : wsToken A.ops stk with ⟨ow, stw⟩
              rw [hwt] at hf
              cases ow with
              | none => dsimp only at hf; cases hf
              | some t₂ =>
                dsimp only at hf
                cases hft : fromTokenF A fuel t₂ stw with
                | error e => rw [hft] at hf; cases hf
                | ok pv =>
                  obtain ⟨v₁, stv⟩ := pv
                  rw [hft] at hf
                  dsimp only at hf
                  cases hf
                  obtain ⟨hok, herr⟩ := ih t₂ stw v₁ st₃ hft (d - 1)
                  refine ⟨[(key, v₁)], rfl, ?_, ?_⟩
                  · intro hle
                    dsimp only
                    rw [hwt]
                    dsimp only
                    rw [hok (by simpa using hle)]
                  · intro hlt
                    dsimp only
                    rw [hwt]
                    dsimp only
                    rw [herr (by simpa using hlt)]
          obtain ⟨delta, hdelta, hok, herr⟩ := seq_depth_rel A.ops (A.ops.size st + 1)
            .rcurly (wsToken A.ops) (fun kv => nesting kv.2) (d - 1) _ _ hrel [] st
            obj st' hseq
          simp only [List.nil_append] at hdelta
          subst hdelta
          refine ⟨fun hle => ?_, fun hlt => ?_⟩
          · have hm : (obj.map fun kv => nesting kv.2).foldr max 0 ≤ d - 1 := by
              rw [nestingObj_foldr]
              omega
            unfold parseDepthF
            rw [if_neg hd0]
            dsimp only
            rw [hok hm]
          · have hm : d - 1 < (obj.map fun kv => nesting kv.2).foldr max 0 := by
              rw [nestingObj_foldr]
              omega
            unfold parseDepthF
            rw [if_neg hd0]
            dsimp only
            rw [herr hm]

/-- The depth bound lifted to the `exactly_one` pipeline over the
buffer lexer. -/
theorem parseOne_depth_spec (s : List Nat) (d : Nat) (v : Value) (st' : SliceLexer)
    (h : parseOneSlice s = .ok (v, st')) :
    (nesting v ≤ d → parseOneSliceDepth d s = .ok (v, st')) ∧
    (d < nesting v → parseOneSliceDepth d s = .error .depth) := by
  unfold parseOneSlice at h
  unfold parseOneSliceDepth
  unfold exactlyOne at h ⊢
  rcases hwt : wsToken sliceOps (SliceLexer.ofBytes s) with ⟨o, st₁⟩
  rw [hwt] at h
  cases o with
  | none =>
    dsimp only at h
    cases h
  | some t =>
    dsimp only at h ⊢
    cases hft : fromTokenF sliceAlloc (s.length + 1) t st₁ with
    | error e => rw [hft] at h; cases h
    | ok p =>
      obtain ⟨v₁, st₂⟩ := p
      rw [hft] at h
      dsimp only at h
      obtain ⟨hok, herr⟩ := parseDepthF_spec sliceAlloc (s.length + 1) t st₁ v₁ st₂ hft d
      cases hp : sliceOps.peekNext (eatWhitespace sliceOps st₂) with
      | some c =>
        rw [hp] at h
        cases h
      | none =>
        rw [hp] at h
        dsimp only at h
        cases h
        refine ⟨fun hle => ?_, fun hlt => ?_⟩
        · rw [hok hle]
          dsimp only
          rw [hp]
        · rw [herr hlt]

/-- C3.  Depth-bounded parsing: whenever the unbounded value parser
accepts an input with value `v`, the bounded parser `parse_depth` with
budget `d` succeeds with the same value and final state when the
maximum nesting of `v` is at most `d`, and fails with the `Depth` error
when the nesting exceeds `d` — both generically over the lexer
capabilities and for the whole `exactly_one` pipeline over the buffer
lexer. -/
theorem c3_parse_depth_bound :
    (∀ (τ : Type) (A : LexAllocOps τ) (fuel : Nat) (t : Token) (st : τ)
        (v : Value) (st₂ : τ),
      fromTokenF A fuel t st = .ok (v, st₂) →
      ∀ d : Nat,
        (nesting v ≤ d → parseDepthF A fuel d t st = .ok (v, st₂)) ∧
        (d < nesting v → parseDepthF A fuel d t st = .error .depth)) ∧
    (∀ (s : List Nat) (d : Nat) (v : Value) (st₂ : SliceLexer),
      parseOneSlice s = .ok (v, st₂) →
        (nesting v ≤ d → parseOneSliceDepth d s = .ok (v, st₂)) ∧
        (d < nesting v → parseOneSliceDepth d s = .error .depth)) :=
  ⟨fun τ A => parseDepthF_spec A, parseOne_depth_spec⟩

/-- C3 witness: `[null]` parses to an array of nesting 2; with depth
budget 2 the bounded parser reproduces the result, and with budget 1 it
fails with `Depth`. -/
theorem c3_witness :
    parseOneSlice [91, 110, 117, 108, 108, 93] =
      .ok (.array [.null], ⟨[93, 108, 108, 117, 110, 91], []⟩) ∧
    nesting (.array [.null]) = 2 ∧
    parseOneSliceDepth 2 [91, 110, 117, 108, 108, 93] =
      .ok (.array [.null], ⟨[93, 108, 108, 117, 110, 91], []⟩) ∧
    parseOneSliceDepth 1 [91, 110, 117, 108, 108, 93] = .error .depth := by
  refine ⟨rfl, rfl, ?_, ?_⟩
  · exact (c3_parse_depth_bound.2 [91, 110, 117, 108, 108, 93] 2 (.array [.null])
      ⟨[93, 108, 108, 117, 110, 91], []⟩ rfl).1 (by decide)
  · exact (c3_parse_depth_bound.2 [91, 110, 117, 108, 108, 93] 1 (.array [.null])
      ⟨[93, 108, 108, 117, 110, 91], []⟩ rfl).2 (by decide)

end Hifijson
